import Mathlib

/-!
Verification of the encoding-safe line-oriented edit engine of
mcp-iso8859-writer: a shallow embedding of `src/utils.ts`,
`src/validators.ts` and `src/handlers.ts` (line-ending detection,
line-range replacement, path and range validation, backup placement,
the ISO-8859-1 codec and the corruption scan, and the three operation
handlers), together with theorems settling the specification claims.

Text is modelled as `List Char`, bytes as `List Nat` (each < 256), and
the filesystem as a partial map from paths to byte contents.
-/

namespace Iso8859

/-- The two line-terminator conventions the detector distinguishes.
In the source these are the strings CR LF and LF. -/
inductive LineEnding where
  | CRLF
  | LF
deriving DecidableEq, Repr

/-- The character sequence of a terminator, as used when rejoining lines. -/
def LineEnding.chars : LineEnding → List Char
  | .CRLF => ['\r', '\n']
  | .LF => ['\n']

/-- Helper for `crlfCount`: counts positions where the previous character is
CR and the current one is LF.  Matches of the pattern CR LF cannot overlap
(adjacent matches would force one character to be both CR and LF), so the
number of such positions equals the number of regex matches of `\r\n`
counted by the source. -/
def crlfCountAux (prev : Char) : List Char → Nat
  | [] => 0
  | c :: rest => (if prev = '\r' ∧ c = '\n' then 1 else 0) + crlfCountAux c rest

/-- Number of occurrences of the two-character sequence CR LF,
embedding `(content.match(/\r\n/g) || []).length` from `detectLineEnding`. -/
def crlfCount : List Char → Nat
  | [] => 0
  | c :: rest => crlfCountAux c rest

/-- Helper for `lfOnlyCount`: counts LF characters whose preceding
character is not CR, given the character preceding the current list. -/
def lfOnlyCountAux (prev : Char) : List Char → Nat
  | [] => 0
  | c :: rest => (if c = '\n' ∧ prev ≠ '\r' then 1 else 0) + lfOnlyCountAux c rest

/-- Number of LF characters not immediately preceded by CR, embedding
`(content.match(/(?<!\r)\n/g) || []).length` from `detectLineEnding`
(an LF at the very start of the text has no preceding character and
is counted). -/
def lfOnlyCount : List Char → Nat
  | [] => 0
  | c :: rest => (if c = '\n' then 1 else 0) + lfOnlyCountAux c rest

/-- Embedding of `detectLineEnding` from `src/utils.ts`.  The parameter
`eol` is the host platform default terminator `os.EOL`. -/
def detectLineEnding (eol : LineEnding) (content : List Char) : LineEnding :=
  let crlf := crlfCount content
  let lf := lfOnlyCount content
  if crlf > lf then .CRLF
  else if lf > 0 then .LF
  else eol

/-- Embedding of `content.split(/\r?\n/)`: splits text at every bare LF and
every CR LF pair; a CR not followed by LF is ordinary line content.  A text
with no terminator yields a single-element list, and a trailing terminator
yields a final empty line. -/
def splitLines : List Char → List (List Char)
  | [] => [[]]
  | '\r' :: '\n' :: rest => [] :: splitLines rest
  | '\n' :: rest => [] :: splitLines rest
  | c :: rest =>
    match splitLines rest with
    | [] => [[c]]
    | l :: ls => (c :: l) :: ls

/-- Embedding of `Array.prototype.join(sep)`: concatenates the pieces with
`sep` between consecutive pieces. -/
def joinLines (sep : List Char) : List (List Char) → List Char
  | [] => []
  | [l] => l
  | l :: ls => l ++ sep ++ joinLines sep ls

example : splitLines ("a\r\nb\nc").toList = [['a'], ['b'], ['c']] := by decide
example : splitLines ("a\n").toList = [['a'], []] := by decide
example : splitLines ("a\rb").toList = [['a', '\r', 'b']] := by decide
example : crlfCount ("a\r\nb\nc\r\n").toList = 2 := by decide
example : lfOnlyCount ("a\r\nb\nc\r\n").toList = 1 := by decide
example : detectLineEnding .LF ("a\r\nb\nc").toList = .LF := by decide
example : joinLines ['\r', '\n'] [['a'], ['b']] = ("a\r\nb").toList := by decide

/-- Decimal rendering of a natural number, for the `Date.now()` timestamp
interpolated into backup file names. -/
def natChars (n : Nat) : List Char := Nat.toDigits 10 n

/-- Decimal rendering of an integer, for the numbers interpolated into the
error messages of `validateLineRange`. -/
def intChars (n : Int) : List Char := (toString n).toList

/-- Result shape of `validateLineRange`: `{ valid: boolean; error?: string }`. -/
structure RangeValidation where
  valid : Bool
  error : Option (List Char)
deriving DecidableEq, Repr

/-- Message for `startLine < 1`:  `startLine must be >= 1 (got ${startLine})`. -/
def rangeMsgStartLow (s : Int) : List Char :=
  ("startLine must be >= 1 (got ").toList ++ intChars s ++ (")").toList

/-- Message for `endLine < 1`:  `endLine must be >= 1 (got ${endLine})`. -/
def rangeMsgEndLow (e : Int) : List Char :=
  ("endLine must be >= 1 (got ").toList ++ intChars e ++ (")").toList

/-- Message for `startLine > endLine`:
`startLine (${startLine}) > endLine (${endLine})`. -/
def rangeMsgStartGtEnd (s e : Int) : List Char :=
  ("startLine (").toList ++ intChars s ++ (") > endLine (").toList
    ++ intChars e ++ (")").toList

/-- Message for `startLine > totalLines`:
`startLine (${startLine}) exceeds file length (${totalLines} lines)`. -/
def rangeMsgStartBeyond (s n : Int) : List Char :=
  ("startLine (").toList ++ intChars s ++ (") exceeds file length (").toList
    ++ intChars n ++ (" lines)").toList

/-- Message for `endLine > totalLines`:
`endLine (${endLine}) exceeds file length (${totalLines} lines)`. -/
def rangeMsgEndBeyond (e n : Int) : List Char :=
  ("endLine (").toList ++ intChars e ++ (") exceeds file length (").toList
    ++ intChars n ++ (" lines)").toList

/-- Embedding of `validateLineRange` from `src/validators.ts`.  Line numbers
arrive as arbitrary JavaScript numbers, modelled as integers; `totalLines`
is a buffer length at the call site but the function itself only compares. -/
def validateLineRange (startLine endLine totalLines : Int) : RangeValidation :=
  if startLine < 1 then ⟨false, some (rangeMsgStartLow startLine)⟩
  else if endLine < 1 then ⟨false, some (rangeMsgEndLow endLine)⟩
  else if startLine > endLine then ⟨false, some (rangeMsgStartGtEnd startLine endLine)⟩
  else if startLine > totalLines then ⟨false, some (rangeMsgStartBeyond startLine totalLines)⟩
  else if endLine > totalLines then ⟨false, some (rangeMsgEndBeyond endLine totalLines)⟩
  else ⟨true, none⟩

example : (validateLineRange 1 5 10).valid = true := by decide
example : (validateLineRange 0 5 10).error
    = some (("startLine must be >= 1 (got 0)").toList) := by decide
example : (validateLineRange 5 3 10).error
    = some (("startLine (5) > endLine (3)").toList) := by decide
example : (validateLineRange 15 20 10).error
    = some (("startLine (15) exceeds file length (10 lines)").toList) := by decide

/-- Decides whether `pre` is a leading run of `s`, embedding the JavaScript
string method call `s.startsWith(pre)`. -/
def strStartsWith (s pre : List Char) : Bool :=
  match pre, s with
  | [], _ => true
  | _ :: _, [] => false
  | a :: as, b :: bs => a = b && strStartsWith bs as

/-- Splits a path into its `/`-separated segments, dropping empty segments
(leading, trailing and doubled separators). -/
def splitSegsAux (cur : List Char) : List Char → List (List Char)
  | [] => [cur.reverse]
  | '/' :: rest => cur.reverse :: splitSegsAux [] rest
  | c :: rest => splitSegsAux (c :: cur) rest

/-- Nonempty `/`-separated segments of a path. -/
def splitSegs (p : List Char) : List (List Char) :=
  (splitSegsAux [] p).filter (· ≠ [])

/-- Resolution of `.` and `..` segments of an absolute path, as performed by
the POSIX implementations of `path.resolve`/`path.normalize`: `.` is
dropped, `..` removes the previous segment (and is dropped at the root). -/
def normSegsAbs (segs : List (List Char)) : List (List Char) :=
  segs.foldl
    (fun acc seg =>
      if seg = ['.'] then acc
      else if seg = ['.', '.'] then acc.dropLast
      else acc ++ [seg])
    []

/-- The absolute path whose segments are `segs` (the filesystem root for
`segs = []`). -/
def pathOfSegs (segs : List (List Char)) : List Char :=
  '/' :: joinLines ['/'] segs

/-- Embedding of `normalize(resolve(p))` from the validator (POSIX) for an
absolute argument `p`: collapse `.`/`..`/doubled separators and drop any
trailing separator.  `resolve` already returns a normalized absolute path
with no trailing separator, so the outer `normalize` is the identity on it. -/
def resolvePath (p : List Char) : List Char :=
  pathOfSegs (normSegsAbs (splitSegs p))

/-- Embedding of `path.isAbsolute` (POSIX): the path starts with `/`. -/
def isAbsolutePath (p : List Char) : Bool :=
  match p with
  | '/' :: _ => true
  | _ => false

example : resolvePath ("/a//b/./c/../d/").toList = ("/a/b/d").toList := by decide
example : resolvePath ("/").toList = ("/").toList := by decide
example : resolvePath ("/..").toList = ("/").toList := by decide

/-- Result shape of `validatePath`:
`{ valid: boolean; normalizedPath: string; error?: string }`. -/
structure PathValidation where
  valid : Bool
  normalizedPath : List Char
  error : Option (List Char)
deriving DecidableEq, Repr

/-- Embedding of `validatePath` from `src/validators.ts`.  `basePath` is the
module constant `BASE_PATH = process.env.MCP_ISO_BASE_PATH || process.cwd()`;
the `if (BASE_PATH)` truthiness test is the test for the empty string.  The
sandbox test compares the resolved path against the resolved base with the
string method `startsWith`. -/
def validatePath (basePath filePath : List Char) : PathValidation :=
  if isAbsolutePath filePath = false then
    ⟨false, [], some ("Path must be absolute").toList⟩
  else
    let normalizedPath := resolvePath filePath
    if basePath = [] then ⟨true, normalizedPath, none⟩
    else
      let normalizedBase := resolvePath basePath
      if strStartsWith normalizedPath normalizedBase = false then
        ⟨false, normalizedPath, some (("Path must be inside ").toList ++ basePath)⟩
      else ⟨true, normalizedPath, none⟩

/-- Modelled from the spec: a path lies within a base directory when it is
the base itself or a descendant of it (the base followed by a path
separator).  Used to compare the sandbox check of `validatePath` against
the containment property the spec states. -/
def liesWithin (base p : List Char) : Prop :=
  p = base ∨ strStartsWith p (base ++ ['/']) = true

instance (base p : List Char) : Decidable (liesWithin base p) := by
  unfold liesWithin
  infer_instance

example : (validatePath ("/foo").toList ("/foo/bar.txt").toList).valid = true := by decide
example : (validatePath ("/foo").toList ("rel.txt").toList).valid = false := by decide
example : (validatePath ("/foo").toList ("/foobar").toList).valid = true := by decide
example : ¬ liesWithin (("/foo").toList) (("/foobar").toList) := by decide

/-- Embedding of `iconv.encode(text, 'iso-8859-1')`: each code point at most
255 maps to the byte of the same value; every other character maps to the
codec fallback byte `0x3F`, the question mark. -/
def encodeIso (text : List Char) : List Nat :=
  text.map fun c => if c.toNat < 256 then c.toNat else 63

/-- Embedding of `iconv.decode(bytes, 'iso-8859-1')`: every byte maps to the
character of the same code point (ISO-8859-1 is total on bytes).  The
reduction modulo 256 only makes the model total on arbitrary naturals; on
bytes it is the identity. -/
def decodeIso (bytes : List Nat) : List Char :=
  bytes.map fun b => Char.ofNat (b % 256)

/-- The corruption marker scanned for by `verifyEncoding`: the literal
three-character sequence `ï¿½` (the UTF-8 bytes of U+FFFD read as
ISO-8859-1). -/
def marker : List Char := ['ï', '¿', '½']

/-- The marker occurs in `s` at position `i`. -/
def markerAt (s : List Char) (i : Nat) : Prop :=
  s[i]? = some 'ï' ∧ s[i + 1]? = some '¿' ∧ s[i + 2]? = some '½'

instance (s : List Char) (i : Nat) : Decidable (markerAt s i) := by
  unfold markerAt
  infer_instance

/-- Number of occurrences of the marker in `s`, embedding
`(content.match(/ï¿½/g) || []).length`.  The marker has three pairwise
distinct characters, so matches cannot overlap and the number of matching
start positions equals the number of regex matches. -/
def markerCount (s : List Char) : Nat :=
  (List.range s.length).countP fun i => decide (markerAt s i)

example : markerCount ("abï¿½cï¿½").toList = 2 := by decide
example : markerCount ("ï¿").toList = 0 := by decide

/-- Result shape of `verifyEncoding`:
`{ encoding: string; corruptionCount: number; isClean: boolean }`. -/
structure VerificationResult where
  encoding : List Char
  corruptionCount : Nat
  isClean : Bool
deriving DecidableEq, Repr

/-- The pure core of `verifyEncoding` from `src/utils.ts`, applied to the
bytes read back from the file: decode as ISO-8859-1 and count marker
occurrences. -/
def verifyEncodingBytes (bytes : List Nat) : VerificationResult :=
  let content := decodeIso bytes
  let corruptionCount := markerCount content
  ⟨("iso-8859-1").toList, corruptionCount, corruptionCount = 0⟩

/-- POSIX `path.join(a, b)` for the shapes used by `createBackup` (the
second argument holds no `.`/`..` segments there, so joining is
concatenation with a separator). -/
def joinPath (a b : List Char) : List Char :=
  if a.getLast? = some '/' then a ++ b else a ++ '/' :: b

/-- POSIX `path.dirname` for the relative paths produced by
`path.relative`: the part before the last separator, or `.` when there is
no separator. -/
def dirname (p : List Char) : List Char :=
  if '/' ∈ p then ((p.reverse.dropWhile (· ≠ '/')).drop 1).reverse else ['.']

/-- POSIX `path.basename`: the part after the last separator. -/
def basename (p : List Char) : List Char :=
  (p.reverse.takeWhile (· ≠ '/')).reverse

example : dirname ("src/config/a.txt").toList = ("src/config").toList := by decide
example : dirname ("a.txt").toList = (".").toList := by decide
example : basename ("/root/a.txt").toList = ("a.txt").toList := by decide

/-- Number of equal leading segments of two segment lists, as computed
inside POSIX `path.relative`. -/
def commonSegs : List (List Char) → List (List Char) → Nat
  | a :: as, b :: bs => if a = b then 1 + commonSegs as bs else 0
  | _, _ => 0

/-- Embedding of POSIX `path.relative(f, t)` for absolute arguments: both
paths are resolved to segments, the shared leading segments are dropped,
each remaining segment of `f` contributes one `..`, and the remaining
segments of `t` follow. -/
def nodeRelative (f t : List Char) : List Char :=
  let fp := normSegsAbs (splitSegs f)
  let tp := normSegsAbs (splitSegs t)
  let c := commonSegs fp tp
  joinLines ['/'] (List.replicate (fp.length - c) ['.', '.'] ++ tp.drop c)

example : nodeRelative ("/r").toList ("/r/src/a.txt").toList
    = ("src/a.txt").toList := by decide
example : nodeRelative ("/r").toList ("/q/a.txt").toList
    = ("../q/a.txt").toList := by decide
example : nodeRelative ("/r").toList ("/r/a.txt").toList = ("a.txt").toList := by decide

/-- The backup directory chosen by `createBackup` from `src/utils.ts` for a
file: under `<projectRoot>/.mcp-iso8859-writer`, mirroring the directory of
the file relative to the backup root, except that a relative directory of
`.` or a relative path starting with `..` is sent to `external`. -/
def backupDirOf (projectRoot filePath : List Char) : List Char :=
  let backupBaseDir := joinPath projectRoot (".mcp-iso8859-writer").toList
  let relativePath := nodeRelative projectRoot filePath
  let relativeDir := dirname relativePath
  if relativeDir = ['.'] ∨ strStartsWith relativePath ['.', '.'] = true then
    joinPath backupBaseDir ("external").toList
  else
    joinPath backupBaseDir relativeDir

/-- The full backup file path chosen by `createBackup`:
`<backupDir>/<fileName>.backup.<timestampMillis>` with `now` the value of
`Date.now()`. -/
def backupPathOf (projectRoot filePath : List Char) (now : Nat) : List Char :=
  joinPath (backupDirOf projectRoot filePath)
    (basename filePath ++ (".backup.").toList ++ natChars now)

example : backupDirOf ("/proj").toList ("/proj/src/a.txt").toList
    = ("/proj/.mcp-iso8859-writer/src").toList := by decide
example : backupDirOf ("/proj").toList ("/proj/a.txt").toList
    = ("/proj/.mcp-iso8859-writer/external").toList := by decide
example : backupDirOf ("/proj").toList ("/tmp/a.txt").toList
    = ("/proj/.mcp-iso8859-writer/external").toList := by decide
example : backupPathOf ("/proj").toList ("/proj/src/a.txt").toList 7
    = ("/proj/.mcp-iso8859-writer/src/a.txt.backup.7").toList := by decide

/-- The filesystem, the only state shared between operations: a partial map
from paths to byte contents. -/
def FS : Type := List Char → Option (List Nat)

/-- Effect of `writeFileAtomic`/`copyFileSync` at the destination: the file at `p` now
holds `bytes`; every other file is unchanged. -/
def FS.write (fs : FS) (p : List Char) (bytes : List Nat) : FS :=
  fun q => if q = p then some bytes else fs q

/-- Embedding of `createBackup` from `src/utils.ts`: copy the target file
byte for byte to the computed backup path and return that path.  `none`
models the exception `copyFileSync` raises when the source is missing;
directory creation is idempotent and keeps no modelled state. -/
def createBackup (projectRoot : List Char) (now : Nat) (fs : FS) (filePath : List Char) :
    Option (FS × List Char) :=
  match fs filePath with
  | none => none
  | some bytes =>
    let backupPath := backupPathOf projectRoot filePath now
    some (FS.write fs backupPath bytes, backupPath)

/-- Outcome of one operation at the transport boundary: either the handler
returns its structured output, or its catch-all turns the failure into the
uniform error response (`content` text `Error: <message>` with
`isError: true`). -/
inductive HandlerResult (α : Type) where
  | ok (out : α)
  | err (message : List Char)
deriving DecidableEq, Repr

/-- The `isError` flag of the response a `HandlerResult` serializes to:
only the failure shape carries `isError: true`. -/
def HandlerResult.isError {α : Type} : HandlerResult α → Bool
  | .ok _ => false
  | .err _ => true

/-- Structured output of `write_file_iso`. -/
structure WriteOutput where
  path : List Char
  encoding : List Char
  corruption_count : Nat
  is_clean : Bool
deriving DecidableEq, Repr

/-- Structured output of `edit_file_iso`. -/
structure EditOutput where
  path : List Char
  encoding : List Char
  corruption_count : Nat
  is_clean : Bool
  lines_replaced : Nat
  total_lines : Nat
  backup_path : List Char
deriving DecidableEq, Repr

/-- Structured output of `read_file_iso`. -/
structure ReadOutput where
  path : List Char
  content : List Char
  lines : Nat
  line_ending : LineEnding
deriving DecidableEq, Repr

/-- Message of the modelled I/O fault of an atomic write. -/
def writeFailMsg : List Char := ("atomic write failed").toList

/-- Message of the modelled fault of the backup copy. -/
def backupFailMsg : List Char := ("backup copy failed").toList

/-- Message of the modelled fault of reading a file back for verification. -/
def readFailMsg : List Char := ("read failed").toList

/-- Embedding of `handleWriteFileIso` from `src/handlers.ts`.  `basePath` is
the validator sandbox base; `writeFails` injects an I/O fault at the
`writeFileAtomic` call (whose failure leaves the target intact).  Every
`throw` of the source body is modelled by returning the `err` shape the
catch-all builds from the thrown message. -/
def handleWriteFileIso (basePath : List Char) (writeFails : Bool) (fs : FS)
    (filePath content : List Char) : FS × HandlerResult WriteOutput :=
  let pv := validatePath basePath filePath
  if pv.valid = false then (fs, .err (pv.error.getD []))
  else
    let np := pv.normalizedPath
    let iso8859Content := encodeIso content
    if writeFails then (fs, .err writeFailMsg)
    else
      let fs1 := FS.write fs np iso8859Content
      match fs1 np with
      | none => (fs1, .err readFailMsg)
      | some written =>
        let v := verifyEncodingBytes written
        (fs1, .ok ⟨np, v.encoding, v.corruptionCount, v.isClean⟩)

/-- Line-range replacement result computed by the body of
`handleEditFileIso` once the file content is decoded. -/
structure EditCore where
  lineEnding : LineEnding
  updatedLines : List (List Char)
  updatedContent : List Char
  linesReplaced : Nat
  totalLines : Nat
deriving DecidableEq, Repr

/-- The pure algorithmic body of `handleEditFileIso`: detect the terminator
of the existing content, split it into lines, validate the requested range,
splice in the split replacement (`lines.splice(startLine - 1,
linesReplaced, ...newLines)` on an in-range index is take/append/drop) and
rejoin with the detected terminator.  `totalLines` is the length of the
mutated buffer, the value the handler reports as `total_lines`. -/
def editFileCore (eol : LineEnding) (fileContent : List Char) (startLine endLine : Int)
    (newContent : List Char) : Except (List Char) EditCore :=
  let lineEnding := detectLineEnding eol fileContent
  let lines := splitLines fileContent
  let totalLines := lines.length
  let rv := validateLineRange startLine endLine totalLines
  if rv.valid = false then .error (rv.error.getD [])
  else
    let newLines := splitLines newContent
    let linesReplaced := (endLine - startLine + 1).toNat
    let spliced := lines.take (startLine - 1).toNat ++ newLines
      ++ lines.drop ((startLine - 1).toNat + linesReplaced)
    .ok ⟨lineEnding, spliced, joinLines lineEnding.chars spliced, linesReplaced, spliced.length⟩

/-- Embedding of `handleEditFileIso` from `src/handlers.ts`: validate the
path, require existence, create the backup, decode, run `editFileCore`,
re-encode and write atomically, then verify the written bytes.
`backupFails` injects a fault at the backup copy and `writeFails` at the
atomic write; each failure is returned as the catch-all error shape. -/
def handleEditFileIso (basePath projectRoot : List Char) (eol : LineEnding) (now : Nat)
    (backupFails writeFails : Bool) (fs : FS) (filePath : List Char)
    (startLine endLine : Int) (newContent : List Char) : FS × HandlerResult EditOutput :=
  let pv := validatePath basePath filePath
  if pv.valid = false then (fs, .err (pv.error.getD []))
  else
    let np := pv.normalizedPath
    match fs np with
    | none => (fs, .err (("File does not exist: ").toList ++ np))
    | some fileBytes =>
      if backupFails then (fs, .err backupFailMsg)
      else
        match createBackup projectRoot now fs np with
        | none => (fs, .err backupFailMsg)
        | some (fs1, backupPath) =>
          let fileContent := decodeIso fileBytes
          match editFileCore eol fileContent startLine endLine newContent with
          | .error e => (fs1, .err e)
          | .ok r =>
            let iso8859Content := encodeIso r.updatedContent
            if writeFails then (fs1, .err writeFailMsg)
            else
              let fs2 := FS.write fs1 np iso8859Content
              match fs2 np with
              | none => (fs2, .err readFailMsg)
              | some written =>
                let v := verifyEncodingBytes written
                (fs2, .ok ⟨np, v.encoding, v.corruptionCount, v.isClean,
                  r.linesReplaced, r.totalLines, backupPath⟩)

/-- Embedding of `handleReadFileIso` from `src/handlers.ts`: validate the
path, require existence, decode the bytes, detect the terminator and count
the lines. -/
def handleReadFileIso (basePath : List Char) (eol : LineEnding) (fs : FS)
    (filePath : List Char) : FS × HandlerResult ReadOutput :=
  let pv := validatePath basePath filePath
  if pv.valid = false then (fs, .err (pv.error.getD []))
  else
    let np := pv.normalizedPath
    match fs np with
    | none => (fs, .err (("File does not exist: ").toList ++ np))
    | some fileBytes =>
      let content := decodeIso fileBytes
      let lineEnding := detectLineEnding eol content
      (fs, .ok ⟨np, content, (splitLines content).length, lineEnding⟩)

example :
    (editFileCore .LF ("l1\r\nl2\r\nl3").toList 2 2 ("mod").toList).toOption.map
        (fun r => r.updatedContent)
      = some ("l1\r\nmod\r\nl3").toList := by decide

/-! ## Shared helper lemmas -/

/-- The function `validateLineRange` accepts exactly the ranges satisfying the five
precondition inequalities. -/
theorem validateLineRange_valid_iff (s e n : Int) :
    (validateLineRange s e n).valid = true ↔ (1 ≤ s ∧ 1 ≤ e ∧ s ≤ e ∧ s ≤ n ∧ e ≤ n) := by
  unfold validateLineRange
  split_ifs <;> simp <;> omega

/-- The last character of `l`, or `d` when `l` is empty: the character
preceding whatever follows `l` in a concatenation. -/
def lastD (d : Char) : List Char → Char
  | [] => d
  | c :: r => lastD c r

theorem lastD_append (t : List Char) : ∀ (l : List Char) (p : Char),
    lastD p (l ++ t) = lastD (lastD p l) t := by
  intro l
  induction l with
  | nil => intro p; rfl
  | cons c r ih => intro p; simpa [lastD] using ih c

theorem lastD_eq_getLast? (l : List Char) : ∀ p : Char, lastD p l = l.getLast?.getD p := by
  induction l with
  | nil => intro p; rfl
  | cons c r ih =>
    intro p
    cases r with
    | nil => rfl
    | cons c2 r2 =>
      rw [List.getLast?_cons_cons]
      exact ih c

theorem crlfCountAux_append (t : List Char) : ∀ (l : List Char) (p : Char),
    crlfCountAux p (l ++ t) = crlfCountAux p l + crlfCountAux (lastD p l) t := by
  intro l
  induction l with
  | nil => intro p; simp [crlfCountAux, lastD]
  | cons c r ih =>
    intro p
    show crlfCountAux p (c :: (r ++ t)) = crlfCountAux p (c :: r) + crlfCountAux (lastD c r) t
    simp only [crlfCountAux]
    rw [ih c]
    omega

theorem lfOnlyCountAux_append (t : List Char) : ∀ (l : List Char) (p : Char),
    lfOnlyCountAux p (l ++ t) = lfOnlyCountAux p l + lfOnlyCountAux (lastD p l) t := by
  intro l
  induction l with
  | nil => intro p; simp [lfOnlyCountAux, lastD]
  | cons c r ih =>
    intro p
    show lfOnlyCountAux p (c :: (r ++ t))
        = lfOnlyCountAux p (c :: r) + lfOnlyCountAux (lastD c r) t
    simp only [lfOnlyCountAux]
    rw [ih c]
    omega

theorem crlfCountAux_of_no_lf {l : List Char} (h : '\n' ∉ l) (p : Char) :
    crlfCountAux p l = 0 := by
  induction l generalizing p with
  | nil => rfl
  | cons c r ih =>
    have hc : c ≠ '\n' := fun hc => h (hc ▸ List.mem_cons_self c r)
    have hr : '\n' ∉ r := fun hr => h (List.mem_cons_of_mem c hr)
    simp only [crlfCountAux, ih hr]
    rw [if_neg (fun hp => hc hp.2)]

theorem lfOnlyCountAux_of_no_lf {l : List Char} (h : '\n' ∉ l) (p : Char) :
    lfOnlyCountAux p l = 0 := by
  induction l generalizing p with
  | nil => rfl
  | cons c r ih =>
    have hc : c ≠ '\n' := fun hc => h (hc ▸ List.mem_cons_self c r)
    have hr : '\n' ∉ r := fun hr => h (List.mem_cons_of_mem c hr)
    simp only [lfOnlyCountAux, ih hr]
    rw [if_neg (fun hp => hc hp.1)]

theorem crlfCount_eq_aux {p : Char} (hp : p ≠ '\r') (s : List Char) :
    crlfCount s = crlfCountAux p s := by
  cases s with
  | nil => rfl
  | cons c r =>
    simp only [crlfCount, crlfCountAux]
    rw [if_neg (fun h => hp h.1)]
    omega

theorem lfOnlyCount_eq_aux {p : Char} (hp : p ≠ '\r') (s : List Char) :
    lfOnlyCount s = lfOnlyCountAux p s := by
  cases s with
  | nil => rfl
  | cons c r =>
    simp only [lfOnlyCount, lfOnlyCountAux]
    congr 1
    by_cases hc : c = '\n'
    · rw [if_pos hc, if_pos ⟨hc, hp⟩]
    · rw [if_neg hc, if_neg (fun h => hc h.1)]

/-- Every line produced by splitting contains no LF character. -/
theorem splitLines_no_lf : ∀ (s : List Char), ∀ l ∈ splitLines s, '\n' ∉ l := by
  intro s
  induction s using splitLines.induct with
  | case1 =>
    intro l hl
    simp only [splitLines, List.mem_singleton] at hl
    simp [hl]
  | case2 rest ih =>
    intro l hl
    simp only [splitLines, List.mem_cons] at hl
    rcases hl with h | h
    · simp [h]
    · exact ih l h
  | case3 rest ih =>
    intro l hl
    simp only [splitLines, List.mem_cons] at hl
    rcases hl with h | h
    · simp [h]
    · exact ih l h
  | case4 c rest h1 h2 heq ih =>
    intro l hl
    rw [splitLines.eq_4 c rest h1 h2, heq] at hl
    simp only [List.mem_singleton] at hl
    subst hl
    intro hmem
    simp only [List.mem_singleton] at hmem
    exact h2 hmem.symm
  | case5 c rest h1 h2 l0 ls heq ih =>
    intro l hl
    rw [splitLines.eq_4 c rest h1 h2, heq] at hl
    rcases List.mem_cons.mp hl with h | h
    · subst h
      intro hmem
      rcases List.mem_cons.mp hmem with hh | hh
      · exact h2 hh.symm
      · exact ih l0 (by rw [heq]; exact List.mem_cons_self l0 ls) hh
    · exact ih l (by rw [heq]; exact List.mem_cons_of_mem l0 h)

theorem lfOnlyCountAux_crlf_sep (p : Char) : lfOnlyCountAux p ['\r', '\n'] = 0 := by
  simp only [lfOnlyCountAux]
  rw [if_neg (fun h => absurd h.1 (by decide)), if_neg (fun h => h.2 rfl)]

/-- Joining LF-free pieces with the CRLF separator yields text with no
bare-LF terminator: every LF in it is preceded by CR. -/
theorem lfOnlyCountAux_joinCRLF :
    ∀ (pieces : List (List Char)), (∀ l ∈ pieces, '\n' ∉ l) →
      ∀ p, lfOnlyCountAux p (joinLines ['\r', '\n'] pieces) = 0 := by
  intro pieces
  induction pieces with
  | nil => intro _ p; rfl
  | cons l ls ih =>
    intro h p
    cases ls with
    | nil =>
      exact lfOnlyCountAux_of_no_lf (h l (List.mem_cons_self l [])) p
    | cons l2 t =>
      show lfOnlyCountAux p ((l ++ ['\r', '\n']) ++ joinLines ['\r', '\n'] (l2 :: t)) = 0
      rw [lfOnlyCountAux_append, lfOnlyCountAux_append,
        lfOnlyCountAux_of_no_lf (h l (List.mem_cons_self l _)) p,
        lfOnlyCountAux_crlf_sep, lastD_append]
      have hjoin := ih (fun x hx => h x (List.mem_cons_of_mem l hx)) (lastD (lastD p l) ['\r', '\n'])
      omega

/-- Joining LF-free pieces none of which ends in CR with the LF separator
yields text with no CRLF pair. -/
theorem crlfCountAux_joinLF :
    ∀ (pieces : List (List Char)), (∀ l ∈ pieces, '\n' ∉ l) →
      (∀ l ∈ pieces, l.getLast? ≠ some '\r') →
      ∀ p, p ≠ '\r' → crlfCountAux p (joinLines ['\n'] pieces) = 0 := by
  intro pieces
  induction pieces with
  | nil => intro _ _ p _; rfl
  | cons l ls ih =>
    intro hlf hcr p hp
    have hlastD : lastD p l ≠ '\r' := by
      rw [lastD_eq_getLast?]
      cases hL : l.getLast? with
      | none => exact hp
      | some x =>
        intro hx
        simp only [Option.getD_some] at hx
        exact hcr l (List.mem_cons_self l _) (by rw [hL, hx])
    cases ls with
    | nil =>
      exact crlfCountAux_of_no_lf (hlf l (List.mem_cons_self l [])) p
    | cons l2 t =>
      show crlfCountAux p ((l ++ ['\n']) ++ joinLines ['\n'] (l2 :: t)) = 0
      rw [crlfCountAux_append, crlfCountAux_append,
        crlfCountAux_of_no_lf (hlf l (List.mem_cons_self l _)) p, lastD_append]
      have hsep : crlfCountAux (lastD p l) ['\n'] = 0 := by
        simp only [crlfCountAux]
        rw [if_neg (fun h => hlastD h.1)]
      have hjoin := ih (fun x hx => hlf x (List.mem_cons_of_mem l hx))
        (fun x hx => hcr x (List.mem_cons_of_mem l hx))
        (lastD (lastD p l) ['\n']) (show ('\n' : Char) ≠ '\r' by decide)
      omega

/-- The spliced line buffer built by `editFileCore` on a valid range. -/
def splicedLines (fileContent newContent : List Char) (s e : Int) : List (List Char) :=
  (splitLines fileContent).take (s - 1).toNat ++ splitLines newContent
    ++ (splitLines fileContent).drop ((s - 1).toNat + (e - s + 1).toNat)

/-- On a valid range `editFileCore` succeeds and returns exactly the spliced
buffer, its join under the detected terminator, and the two counts. -/
theorem editFileCore_valid_eq (eol : LineEnding) (fileContent newContent : List Char)
    (s e : Int) (h1 : 1 ≤ s) (h2 : s ≤ e)
    (h3 : e ≤ ((splitLines fileContent).length : Int)) :
    editFileCore eol fileContent s e newContent = .ok
      ⟨detectLineEnding eol fileContent,
        splicedLines fileContent newContent s e,
        joinLines (detectLineEnding eol fileContent).chars
          (splicedLines fileContent newContent s e),
        (e - s + 1).toNat,
        (splicedLines fileContent newContent s e).length⟩ := by
  have hvalid : (validateLineRange s e ((splitLines fileContent).length : Int)).valid = true := by
    rw [validateLineRange_valid_iff]
    omega
  simp only [editFileCore, hvalid, splicedLines]
  rfl

/-- Every line of the spliced buffer comes from splitting the original
content or the replacement. -/
theorem splicedLines_no_lf (fileContent newContent : List Char) (s e : Int) :
    ∀ l ∈ splicedLines fileContent newContent s e, '\n' ∉ l := by
  intro l hl
  rcases List.mem_append.mp hl with h | h
  · rcases List.mem_append.mp h with h2 | h2
    · exact splitLines_no_lf fileContent l (List.take_subset _ _ h2)
    · exact splitLines_no_lf newContent l h2
  · exact splitLines_no_lf fileContent l (List.drop_subset _ _ h)

/-- The character-level effect of the ISO-8859-1 encode/decode round trip:
representable characters survive, everything else becomes the fallback
question mark. -/
def isoFallback (c : Char) : Char :=
  if c.toNat < 256 then c else '?'

theorem decode_encode_eq_map (text : List Char) :
    decodeIso (encodeIso text) = text.map isoFallback := by
  induction text with
  | nil => rfl
  | cons c t ih =>
    show Char.ofNat ((if c.toNat < 256 then c.toNat else 63) % 256) :: decodeIso (encodeIso t)
      = isoFallback c :: t.map isoFallback
    rw [ih]
    by_cases hc : c.toNat < 256
    · rw [if_pos hc, Nat.mod_eq_of_lt hc, Char.ofNat_toNat]
      rw [show isoFallback c = c from if_pos hc]
    · rw [if_neg hc]
      rw [show isoFallback c = '?' from if_neg hc]

theorem map_isoFallback_of_repertoire {text : List Char} (h : ∀ c ∈ text, c.toNat < 256) :
    text.map isoFallback = text := by
  induction text with
  | nil => rfl
  | cons c t ih =>
    rw [List.map_cons, isoFallback, if_pos (h c (List.mem_cons_self c t)),
      ih fun x hx => h x (List.mem_cons_of_mem c hx)]

theorem isoFallback_eq_marker_iff (x c : Char) (hc : c.toNat < 256) (hq : c ≠ '?') :
    isoFallback x = c ↔ x = c := by
  unfold isoFallback
  by_cases hx : x.toNat < 256
  · rw [if_pos hx]
  · rw [if_neg hx]
    constructor
    · intro h
      exact absurd h.symm hq
    · intro h
      subst h
      exact absurd hc hx

theorem getElem?_map_isoFallback_marker (s : List Char) (i : Nat) (c : Char)
    (hc : c.toNat < 256) (hq : c ≠ '?') :
    ((s.map isoFallback)[i]? = some c) ↔ (s[i]? = some c) := by
  rw [List.getElem?_map]
  cases s[i]? with
  | none => simp
  | some x =>
    simp only [Option.map_some', Option.some.injEq]
    exact isoFallback_eq_marker_iff x c hc hq

theorem markerAt_map_isoFallback (s : List Char) (i : Nat) :
    markerAt (s.map isoFallback) i ↔ markerAt s i := by
  unfold markerAt
  rw [getElem?_map_isoFallback_marker s i 'ï' (by decide) (by decide),
    getElem?_map_isoFallback_marker s (i + 1) '¿' (by decide) (by decide),
    getElem?_map_isoFallback_marker s (i + 2) '½' (by decide) (by decide)]

theorem markerCount_map_isoFallback (s : List Char) :
    markerCount (s.map isoFallback) = markerCount s := by
  unfold markerCount
  rw [List.length_map]
  refine List.countP_congr ?_
  intro i _
  simp only [decide_eq_true_eq]
  exact markerAt_map_isoFallback s i

/-- Success-path evaluation of the write handler: with a valid path and no
injected I/O fault it writes the encoded content and verifies it. -/
theorem handleWriteFileIso_ok (basePath : List Char) (fs : FS) (filePath content : List Char)
    (hv : (validatePath basePath filePath).valid = true) :
    handleWriteFileIso basePath false fs filePath content
      = (FS.write fs (validatePath basePath filePath).normalizedPath (encodeIso content),
        .ok ⟨(validatePath basePath filePath).normalizedPath, ("iso-8859-1").toList,
          (verifyEncodingBytes (encodeIso content)).corruptionCount,
          (verifyEncodingBytes (encodeIso content)).isClean⟩) := by
  unfold handleWriteFileIso
  rw [if_neg (by rw [hv]; simp)]
  simp only [Bool.false_eq_true, if_false, FS.write]
  simp
  rfl

theorem strStartsWith_append (base t : List Char) : strStartsWith (base ++ t) base = true := by
  induction base with
  | nil => cases t <;> rfl
  | cons a as ih => simp [strStartsWith, ih]

theorem strStartsWith_of_append (a b : List Char) :
    ∀ q : List Char, strStartsWith q (a ++ b) = true → strStartsWith q a = true := by
  induction a with
  | nil => intro q _; cases q <;> rfl
  | cons x xs ih =>
    intro q h
    cases q with
    | nil => simp [strStartsWith] at h
    | cons y ys =>
      simp only [List.cons_append, strStartsWith, Bool.and_eq_true, decide_eq_true_eq] at h ⊢
      exact ⟨h.1, ih ys h.2⟩

theorem strStartsWith_refl (l : List Char) : strStartsWith l l = true := by
  induction l with
  | nil => rfl
  | cons a as ih => simp [strStartsWith, ih]

theorem liesWithin_startsWith {base q : List Char} (h : liesWithin base q) :
    strStartsWith q base = true := by
  rcases h with h | h
  · rw [h]
    exact strStartsWith_refl base
  · exact strStartsWith_of_append base ['/'] q h

/-- No decimal (or hexadecimal) digit character is the path separator. -/
theorem digitChar_ne_slash (m : Nat) : Nat.digitChar m ≠ '/' := by
  by_cases hm : m < 16
  · interval_cases m <;> decide
  · have hk : ∀ k : Nat, k < 16 → ¬ m = k := fun k hkk he => hm (by omega)
    have h16 : Nat.digitChar m = '*' := by
      unfold Nat.digitChar
      rw [if_neg (hk 0 (by norm_num)), if_neg (hk 1 (by norm_num)), if_neg (hk 2 (by norm_num)),
        if_neg (hk 3 (by norm_num)), if_neg (hk 4 (by norm_num)), if_neg (hk 5 (by norm_num)),
        if_neg (hk 6 (by norm_num)), if_neg (hk 7 (by norm_num)), if_neg (hk 8 (by norm_num)),
        if_neg (hk 9 (by norm_num)), if_neg (hk 10 (by norm_num)),
        if_neg (hk 11 (by norm_num)), if_neg (hk 12 (by norm_num)),
        if_neg (hk 13 (by norm_num)), if_neg (hk 14 (by norm_num)),
        if_neg (hk 15 (by norm_num))]
    rw [h16]
    decide

theorem toDigitsCore_no_slash (b : Nat) :
    ∀ (fuel n : Nat) (acc : List Char), (∀ c ∈ acc, c ≠ '/') →
      ∀ c ∈ Nat.toDigitsCore b fuel n acc, c ≠ '/' := by
  intro fuel
  induction fuel with
  | zero => intro n acc hacc c hc; exact hacc c hc
  | succ fl ih =>
    intro n acc hacc c hc
    simp only [Nat.toDigitsCore] at hc
    have hcons : ∀ x ∈ Nat.digitChar (n % b) :: acc, x ≠ '/' := by
      intro x hx
      rcases List.mem_cons.mp hx with h | h
      · exact h ▸ digitChar_ne_slash (n % b)
      · exact hacc x h
    by_cases hz : n / b = 0
    · rw [if_pos hz] at hc
      exact hcons c hc
    · rw [if_neg hz] at hc
      exact ih (n / b) _ hcons c hc

/-- The rendered timestamp contains no path separator. -/
theorem natChars_no_slash (n : Nat) : ∀ c ∈ natChars n, c ≠ '/' :=
  toDigitsCore_no_slash 10 (n + 1) n [] (by intro c hc; cases hc)

theorem takeWhile_ne_slash (y z : List Char) (hy : ∀ c ∈ y, c ≠ '/') :
    (y ++ '/' :: z).takeWhile (· ≠ '/') = y := by
  rw [List.takeWhile_append_of_pos (by intro a ha; exact decide_eq_true (hy a ha))]
  have h0 : ('/' :: z).takeWhile (fun c => decide (c ≠ '/')) = [] := rfl
  rw [h0, List.append_nil]

theorem dropWhile_ne_slash (y z : List Char) (hy : ∀ c ∈ y, c ≠ '/') :
    (y ++ '/' :: z).dropWhile (· ≠ '/') = '/' :: z := by
  rw [List.dropWhile_append_of_pos (by intro a ha; exact decide_eq_true (hy a ha))]
  rfl

theorem basename_append_slash (z y : List Char) (hy : ∀ c ∈ y, c ≠ '/') :
    basename (z ++ '/' :: y) = y := by
  unfold basename
  rw [List.reverse_append, List.reverse_cons, List.append_assoc, List.singleton_append,
    takeWhile_ne_slash y.reverse z.reverse (fun c hc => hy c (List.mem_reverse.mp hc))]
  exact List.reverse_reverse y

theorem dirname_append_slash (z y : List Char) (hy : ∀ c ∈ y, c ≠ '/') :
    dirname (z ++ '/' :: y) = z := by
  unfold dirname
  rw [if_pos (List.mem_append.mpr (Or.inr (List.mem_cons_self '/' y)))]
  rw [List.reverse_append, List.reverse_cons, List.append_assoc, List.singleton_append,
    dropWhile_ne_slash y.reverse z.reverse (fun c hc => hy c (List.mem_reverse.mp hc))]
  show (z.reverse.drop 0).reverse = z
  rw [List.drop_zero]
  exact List.reverse_reverse z

theorem dirname_of_no_slash (f : List Char) (hf : '/' ∉ f) : dirname f = ['.'] := by
  unfold dirname
  rw [if_neg hf]

theorem basename_no_slash (p : List Char) : ∀ c ∈ basename p, c ≠ '/' := by
  intro c hc
  unfold basename at hc
  rw [List.mem_reverse] at hc
  have h := List.mem_takeWhile_imp hc
  simpa using h

theorem joinPath_of_getLast_ne {a : List Char} (b : List Char) (h : a.getLast? ≠ some '/') :
    joinPath a b = a ++ '/' :: b := by
  unfold joinPath
  rw [if_neg h]

/-- The backup copy never lands on the target file itself: its file name
strictly extends the target file name. -/
theorem backupPathOf_ne (projectRoot p : List Char) (now : Nat) :
    backupPathOf projectRoot p now ≠ p := by
  intro h
  have hx : ∀ c ∈ basename p ++ (".backup.").toList ++ natChars now, c ≠ '/' := by
    intro c hc
    rcases List.mem_append.mp hc with h2 | h2
    · rcases List.mem_append.mp h2 with h3 | h3
      · exact basename_no_slash p c h3
      · intro he
        subst he
        revert h3
        decide
    · exact natChars_no_slash now c h2
  have hbase : basename (backupPathOf projectRoot p now)
      = basename p ++ (".backup.").toList ++ natChars now := by
    unfold backupPathOf joinPath
    by_cases hd : (backupDirOf projectRoot p).getLast? = some '/'
    · rw [if_pos hd]
      have hne : backupDirOf projectRoot p ≠ [] := by
        intro h0
        rw [h0] at hd
        cases hd
      have hsplit : backupDirOf projectRoot p
          = (backupDirOf projectRoot p).dropLast ++ '/' :: [] := by
        conv_lhs => rw [← List.dropLast_append_getLast hne]
        have hlast : (backupDirOf projectRoot p).getLast hne = '/' := by
          have := List.getLast?_eq_getLast (backupDirOf projectRoot p) hne
          rw [this] at hd
          exact (Option.some.injEq _ _ ▸ hd)
        rw [hlast]
      rw [hsplit, List.append_assoc, List.singleton_append]
      exact basename_append_slash _ _ hx
    · rw [if_neg hd]
      exact basename_append_slash _ _ hx
  rw [h] at hbase
  have hlen := congrArg List.length hbase
  rw [List.length_append, List.length_append] at hlen
  have h8 : ((".backup.").toList).length = 8 := by decide
  omega

/-- A well-formed path segment: nonempty, separator-free, and not one of
the special segments `.` and `..`. -/
def segClean (s : List Char) : Prop :=
  s ≠ [] ∧ '/' ∉ s ∧ s ≠ ['.'] ∧ s ≠ ['.', '.']

instance (s : List Char) : Decidable (segClean s) := by
  unfold segClean
  infer_instance

theorem splitSegsAux_no_slash (rest : List Char) :
    ∀ (seg : List Char) (cur : List Char), '/' ∉ seg →
      splitSegsAux cur (seg ++ '/' :: rest) = (cur.reverse ++ seg) :: splitSegsAux [] rest := by
  intro seg
  induction seg with
  | nil =>
    intro cur _
    rw [List.nil_append, splitSegsAux.eq_2, List.append_nil]
  | cons c cs ih =>
    intro cur hs
    have hc : c ≠ '/' := fun h => hs (h ▸ List.mem_cons_self c cs)
    rw [List.cons_append, splitSegsAux.eq_3 cur c _ (fun h => hc h),
      ih (c :: cur) (fun h => hs (List.mem_cons_of_mem c h))]
    rw [List.reverse_cons, List.append_assoc, List.singleton_append]

theorem splitSegsAux_last :
    ∀ (seg : List Char) (cur : List Char), '/' ∉ seg →
      splitSegsAux cur seg = [cur.reverse ++ seg] := by
  intro seg
  induction seg with
  | nil =>
    intro cur _
    rw [splitSegsAux, List.append_nil]
  | cons c cs ih =>
    intro cur hs
    have hc : c ≠ '/' := fun h => hs (h ▸ List.mem_cons_self c cs)
    rw [splitSegsAux.eq_3 cur c _ (fun h => hc h),
      ih (c :: cur) (fun h => hs (List.mem_cons_of_mem c h))]
    rw [List.reverse_cons, List.append_assoc, List.singleton_append]

theorem splitSegsAux_joinLines :
    ∀ (segs : List (List Char)), segs ≠ [] → (∀ s ∈ segs, s ≠ [] ∧ '/' ∉ s) →
      splitSegsAux [] (joinLines ['/'] segs) = segs := by
  intro segs
  induction segs with
  | nil => intro h _; exact absurd rfl h
  | cons l ls ih =>
    intro _ hclean
    cases ls with
    | nil =>
      show splitSegsAux [] l = [l]
      rw [splitSegsAux_last l [] (hclean l (List.mem_cons_self l _)).2]
      rfl
    | cons l2 t =>
      show splitSegsAux [] ((l ++ ['/']) ++ joinLines ['/'] (l2 :: t)) = l :: l2 :: t
      rw [List.append_assoc, List.singleton_append,
        splitSegsAux_no_slash _ l [] (hclean l (List.mem_cons_self l _)).2,
        ih (by simp) (fun s hs => hclean s (List.mem_cons_of_mem l hs))]
      rfl

theorem splitSegs_pathOfSegs (segs : List (List Char))
    (hclean : ∀ s ∈ segs, s ≠ [] ∧ '/' ∉ s) :
    splitSegs (pathOfSegs segs) = segs := by
  unfold splitSegs pathOfSegs
  rw [splitSegsAux.eq_2]
  cases hsegs : segs with
  | nil => rfl
  | cons l ls =>
    rw [← hsegs, splitSegsAux_joinLines segs (by rw [hsegs]; simp) hclean]
    have h1 : List.filter (fun s => decide (s ≠ [])) (([] : List Char).reverse :: segs)
        = List.filter (fun s => decide (s ≠ [])) segs := rfl
    rw [h1]
    exact List.filter_eq_self.mpr (fun s hs => decide_eq_true (hclean s hs).1)

theorem foldl_norm_clean :
    ∀ (segs : List (List Char)), (∀ s ∈ segs, s ≠ ['.'] ∧ s ≠ ['.', '.']) →
      ∀ acc, List.foldl
          (fun acc seg =>
            if seg = ['.'] then acc
            else if seg = ['.', '.'] then acc.dropLast
            else acc ++ [seg]) acc segs
        = acc ++ segs := by
  intro segs
  induction segs with
  | nil => intro _ acc; rw [List.foldl_nil, List.append_nil]
  | cons l ls ih =>
    intro hclean acc
    rw [List.foldl_cons, if_neg (hclean l (List.mem_cons_self l ls)).1,
      if_neg (hclean l (List.mem_cons_self l ls)).2,
      ih (fun s hs => hclean s (List.mem_cons_of_mem l hs)) (acc ++ [l]),
      List.append_assoc, List.singleton_append]

theorem normSegsAbs_clean (segs : List (List Char))
    (hclean : ∀ s ∈ segs, s ≠ ['.'] ∧ s ≠ ['.', '.']) :
    normSegsAbs segs = segs := by
  unfold normSegsAbs
  rw [foldl_norm_clean segs hclean [], List.nil_append]

/-- Resolved segments of a clean absolute path are the path segments. -/
theorem resolveSegs_pathOfSegs (segs : List (List Char))
    (hclean : ∀ s ∈ segs, segClean s) :
    normSegsAbs (splitSegs (pathOfSegs segs)) = segs := by
  rw [splitSegs_pathOfSegs segs (fun s hs => ⟨(hclean s hs).1, (hclean s hs).2.1⟩),
    normSegsAbs_clean segs (fun s hs => ⟨(hclean s hs).2.2.1, (hclean s hs).2.2.2⟩)]

theorem commonSegs_append (e : List (List Char)) :
    ∀ rs : List (List Char), commonSegs rs (rs ++ e) = rs.length := by
  intro rs
  induction rs with
  | nil => cases e <;> rfl
  | cons a as ih =>
    show commonSegs (a :: as) (a :: (as ++ e)) = as.length + 1
    rw [commonSegs, if_pos rfl, ih]
    omega

theorem joinLines_append_last (sep f : List Char) :
    ∀ ds : List (List Char), ds ≠ [] →
      joinLines sep (ds ++ [f]) = joinLines sep ds ++ sep ++ f := by
  intro ds
  induction ds with
  | nil => intro h; exact absurd rfl h
  | cons d t ih =>
    intro _
    cases t with
    | nil => rfl
    | cons d2 t2 =>
      show (d ++ sep) ++ joinLines sep ((d2 :: t2) ++ [f])
        = ((d ++ sep) ++ joinLines sep (d2 :: t2)) ++ sep ++ f
      rw [ih (by simp)]
      simp [List.append_assoc]

/-- The relative path from a clean root to a clean path below it is the
join of the extra segments. -/
theorem nodeRelative_under (rs e : List (List Char))
    (hrs : ∀ s ∈ rs, segClean s) (he : ∀ s ∈ e, segClean s) :
    nodeRelative (pathOfSegs rs) (pathOfSegs (rs ++ e)) = joinLines ['/'] e := by
  unfold nodeRelative
  rw [resolveSegs_pathOfSegs rs hrs,
    resolveSegs_pathOfSegs (rs ++ e)
      (fun s hs => (List.mem_append.mp hs).elim (hrs s) (he s))]
  show joinLines ['/']
      (List.replicate (rs.length - commonSegs rs (rs ++ e)) ['.', '.']
        ++ (rs ++ e).drop (commonSegs rs (rs ++ e)))
    = joinLines ['/'] e
  rw [commonSegs_append e rs, Nat.sub_self, List.replicate_zero, List.nil_append,
    List.drop_left]

theorem strStartsWith_nil_pre (s : List Char) : strStartsWith s [] = true := by
  cases s <;> rfl

theorem joinLines_cons_shape (sep d0 : List Char) (rest : List (List Char)) :
    joinLines sep (d0 :: rest) = d0
    ∨ joinLines sep (d0 :: rest) = d0 ++ sep ++ joinLines sep rest := by
  cases rest with
  | nil => exact Or.inl rfl
  | cons a t => exact Or.inr rfl

/-- A clean first segment keeps the joined relative path from starting with
the two-character sequence `..`. -/
theorem strStartsWith_join_dotdot (d0 : List Char) (rest : List (List Char))
    (h0 : d0 ≠ []) (h2 : strStartsWith d0 ['.', '.'] = false) :
    strStartsWith (joinLines ['/'] (d0 :: rest)) ['.', '.'] = false := by
  rcases joinLines_cons_shape ['/'] d0 rest with h | h
  · rw [h]
    exact h2
  · rw [h, List.append_assoc, List.singleton_append]
    cases d0 with
    | nil => exact absurd rfl h0
    | cons c1 t1 =>
      cases t1 with
      | nil =>
        have hX : strStartsWith ('/' :: joinLines ['/'] rest) ['.'] = false := rfl
        show (decide (('.' : Char) = c1)
            && strStartsWith ('/' :: joinLines ['/'] rest) ['.']) = false
        rw [hX, Bool.and_false]
      | cons c2 t2 =>
        show (decide (('.' : Char) = c1)
            && strStartsWith ((c2 :: t2) ++ '/' :: joinLines ['/'] rest) ['.']) = false
        have e1 : strStartsWith ((c2 :: t2) ++ '/' :: joinLines ['/'] rest) ['.']
            = (decide (('.' : Char) = c2)
              && strStartsWith (t2 ++ '/' :: joinLines ['/'] rest) []) := rfl
        rw [e1, strStartsWith_nil_pre, Bool.and_true]
        have e2 : strStartsWith (c1 :: c2 :: t2) ['.', '.']
            = (decide (('.' : Char) = c1)
              && (decide (('.' : Char) = c2) && strStartsWith t2 [])) := rfl
        rw [e2, strStartsWith_nil_pre, Bool.and_true] at h2
        exact h2

/-- A relative path whose first segment is `..` starts with `..`. -/
theorem strStartsWith_join_dotdot_pos (rest : List (List Char)) :
    strStartsWith (joinLines ['/'] (['.', '.'] :: rest)) ['.', '.'] = true := by
  rcases joinLines_cons_shape ['/'] ['.', '.'] rest with h | h
  · rw [h]
    rfl
  · rw [h, List.append_assoc, List.singleton_append]
    exact strStartsWith_append ['.', '.'] _

theorem joinLines_ne_nil (ds : List (List Char)) (hds : ds ≠ [])
    (hclean : ∀ s ∈ ds, segClean s) : joinLines ['/'] ds ≠ [] := by
  cases ds with
  | nil => exact absurd rfl hds
  | cons d t =>
    cases t with
    | nil => exact (hclean d (List.mem_cons_self d _)).1
    | cons d2 t2 =>
      show (d ++ ['/']) ++ joinLines ['/'] (d2 :: t2) ≠ []
      intro h
      have h1 := (List.append_eq_nil.mp h).1
      have h2 := (List.append_eq_nil.mp h1).2
      cases h2

theorem joinLines_ne_dot (ds : List (List Char)) (hds : ds ≠ [])
    (hclean : ∀ s ∈ ds, segClean s) : joinLines ['/'] ds ≠ ['.'] := by
  cases ds with
  | nil => exact absurd rfl hds
  | cons d t =>
    cases t with
    | nil => exact (hclean d (List.mem_cons_self d _)).2.2.1
    | cons d2 t2 =>
      intro h
      have hlen := congrArg List.length h
      rw [show joinLines ['/'] (d :: d2 :: t2)
          = (d ++ ['/']) ++ joinLines ['/'] (d2 :: t2) from rfl] at hlen
      rw [List.length_append, List.length_append] at hlen
      have hd : d ≠ [] := (hclean d (List.mem_cons_self d _)).1
      have hdl : 0 < d.length := List.length_pos.mpr hd
      simp only [List.length_singleton, List.length_cons, List.length_nil] at hlen
      omega

theorem getLast?_joinLines_ne_slash :
    ∀ (ds : List (List Char)), (∀ s ∈ ds, segClean s) → ds ≠ [] →
      ∀ c, (joinLines ['/'] ds).getLast? = some c → c ≠ '/' := by
  intro ds
  induction ds with
  | nil => intro _ h; exact absurd rfl h
  | cons d t ih =>
    intro hclean _ c hc
    cases t with
    | nil =>
      have hmem : c ∈ d := List.mem_of_getLast?_eq_some hc
      intro he
      exact (hclean d (List.mem_cons_self d _)).2.1 (he ▸ hmem)
    | cons d2 t2 =>
      rw [show joinLines ['/'] (d :: d2 :: t2)
          = (d ++ ['/']) ++ joinLines ['/'] (d2 :: t2) from rfl,
        List.getLast?_append] at hc
      have hne := joinLines_ne_nil (d2 :: t2) (by simp)
        (fun s hs => hclean s (List.mem_cons_of_mem d hs))
      cases hj : (joinLines ['/'] (d2 :: t2)).getLast? with
      | none => exact absurd (List.getLast?_eq_none_iff.mp hj) hne
      | some x =>
        rw [hj] at hc
        simp only [Option.or_some] at hc
        have hx := ih (fun s hs => hclean s (List.mem_cons_of_mem d hs)) (by simp) x hj
        cases hc
        exact hx

theorem getLast?_pathOfSegs_ne_slash (rs : List (List Char)) (hrs0 : rs ≠ [])
    (hclean : ∀ s ∈ rs, segClean s) : (pathOfSegs rs).getLast? ≠ some '/' := by
  intro h
  unfold pathOfSegs at h
  have hne := joinLines_ne_nil rs hrs0 hclean
  cases hX : joinLines ['/'] rs with
  | nil => exact hne hX
  | cons a t =>
    rw [hX, List.getLast?_cons_cons] at h
    exact getLast?_joinLines_ne_slash rs hclean hrs0 '/' (by rw [hX]; exact h) rfl

theorem basename_pathOfSegs (xs : List (List Char)) (f : List Char) (hf : '/' ∉ f) :
    basename (pathOfSegs (xs ++ [f])) = f := by
  have hfc : ∀ c ∈ f, c ≠ '/' := fun c hc he => hf (he ▸ hc)
  cases xs with
  | nil => exact basename_append_slash [] f hfc
  | cons x t =>
    have hshape : pathOfSegs ((x :: t) ++ [f])
        = ('/' :: joinLines ['/'] (x :: t)) ++ '/' :: f := by
      unfold pathOfSegs
      rw [joinLines_append_last ['/'] f (x :: t) (by simp), List.append_assoc,
        List.singleton_append]
      rfl
    rw [hshape]
    exact basename_append_slash _ f hfc

theorem getLast?_cons_joinLines_ne_slash (c0 : Char) (ds : List (List Char))
    (hds : ds ≠ []) (hclean : ∀ s ∈ ds, segClean s) :
    (c0 :: joinLines ['/'] ds).getLast? ≠ some '/' := by
  intro h
  have hne := joinLines_ne_nil ds hds hclean
  cases hX : joinLines ['/'] ds with
  | nil => exact hne hX
  | cons a t =>
    rw [hX, List.getLast?_cons_cons] at h
    exact getLast?_joinLines_ne_slash ds hclean hds '/' (by rw [hX]; exact h) rfl

theorem getLast?_append_ne_slash (A B : List Char) (hB : B ≠ [])
    (h : B.getLast? ≠ some '/') : (A ++ B).getLast? ≠ some '/' := by
  rw [List.getLast?_append]
  cases hj : B.getLast? with
  | none => exact absurd (List.getLast?_eq_none_iff.mp hj) hB
  | some x =>
    simp only [Option.or_some]
    intro he
    exact h (hj.trans he)

/-- The function `backupDirOf` written out with its branch condition. -/
theorem backupDirOf_eq (projectRoot filePath : List Char) :
    backupDirOf projectRoot filePath =
      if dirname (nodeRelative projectRoot filePath) = ['.']
          ∨ strStartsWith (nodeRelative projectRoot filePath) ['.', '.'] = true then
        joinPath (joinPath projectRoot (".mcp-iso8859-writer").toList) (("external").toList)
      else
        joinPath (joinPath projectRoot (".mcp-iso8859-writer").toList)
          (dirname (nodeRelative projectRoot filePath)) := rfl

/-! ## Claim theorems -/

/-- C3: for every text buffer, `detectLineEnding` returns CRLF exactly when
the CRLF count strictly exceeds the count of LF characters not preceded by
CR; otherwise it returns LF when that LF-only count is positive (equal
nonzero counts resolve to LF); and when both counts are zero it returns the
host platform default terminator. -/
theorem detectLineEnding_spec (eol : LineEnding) (content : List Char) :
    (crlfCount content > lfOnlyCount content → detectLineEnding eol content = .CRLF)
    ∧ (crlfCount content ≤ lfOnlyCount content → 0 < lfOnlyCount content →
        detectLineEnding eol content = .LF)
    ∧ (0 < lfOnlyCount content → crlfCount content = lfOnlyCount content →
        detectLineEnding eol content = .LF)
    ∧ (crlfCount content ≤ lfOnlyCount content → lfOnlyCount content = 0 →
        crlfCount content = 0 ∧ detectLineEnding eol content = eol)
    ∧ (detectLineEnding eol content = .CRLF →
        crlfCount content > lfOnlyCount content
        ∨ (crlfCount content = 0 ∧ lfOnlyCount content = 0 ∧ eol = .CRLF)) := by
  refine ⟨?_, ?_, ?_, ?_, ?_⟩
  · intro h
    simp only [detectLineEnding]
    rw [if_pos h]
  · intro h1 h2
    simp only [detectLineEnding]
    rw [if_neg (by omega), if_pos h2]
  · intro h1 h2
    simp only [detectLineEnding]
    rw [if_neg (by omega), if_pos h1]
  · intro h1 h2
    refine ⟨by omega, ?_⟩
    simp only [detectLineEnding]
    rw [if_neg (by omega), if_neg (by omega)]
  · intro h
    by_cases hgt : crlfCount content > lfOnlyCount content
    · exact Or.inl hgt
    · by_cases hlf : 0 < lfOnlyCount content
      · exfalso
        simp only [detectLineEnding] at h
        rw [if_neg (by omega), if_pos hlf] at h
        exact LineEnding.noConfusion h
      · refine Or.inr ⟨by omega, by omega, ?_⟩
        simp only [detectLineEnding] at h
        rw [if_neg (by omega), if_neg hlf] at h
        exact h

/-- Witness for C3 at a concrete input with two CRLF and one bare LF. -/
theorem detectLineEnding_spec_witness :
    detectLineEnding .LF (("a\r\nb\r\nc\nd").toList) = .CRLF :=
  (detectLineEnding_spec .LF (("a\r\nb\r\nc\nd").toList)).1 (by decide)

/-- C5: `validateLineRange` reports invalid exactly when one of the five
precondition inequalities fails; the first violated condition (in source
order) produces its own error message carrying the offending numbers, the
bounds messages also carry the actual total line count, and the five
messages are pairwise distinct. -/
theorem validateLineRange_spec (s e n : Int) :
    ((validateLineRange s e n).valid = true ↔ (1 ≤ s ∧ 1 ≤ e ∧ s ≤ e ∧ s ≤ n ∧ e ≤ n))
    ∧ ((validateLineRange s e n).valid = true → (validateLineRange s e n).error = none)
    ∧ (s < 1 → (validateLineRange s e n).error = some (rangeMsgStartLow s))
    ∧ (1 ≤ s → e < 1 → (validateLineRange s e n).error = some (rangeMsgEndLow e))
    ∧ (1 ≤ s → 1 ≤ e → e < s → (validateLineRange s e n).error = some (rangeMsgStartGtEnd s e))
    ∧ (1 ≤ s → 1 ≤ e → s ≤ e → n < s →
        (validateLineRange s e n).error = some (rangeMsgStartBeyond s n))
    ∧ (1 ≤ s → 1 ≤ e → s ≤ e → s ≤ n → n < e →
        (validateLineRange s e n).error = some (rangeMsgEndBeyond e n))
    ∧ [(validateLineRange 0 5 10).error, (validateLineRange 1 0 10).error,
        (validateLineRange 5 3 10).error, (validateLineRange 15 20 10).error,
        (validateLineRange 5 15 10).error].Pairwise (· ≠ ·) := by
  refine ⟨validateLineRange_valid_iff s e n, ?_, ?_, ?_, ?_, ?_, ?_, by decide⟩
  · intro h
    have h2 := (validateLineRange_valid_iff s e n).mp h
    have a1 : ¬ s < 1 := by omega
    have a2 : ¬ e < 1 := by omega
    have a3 : ¬ s > e := by omega
    have a4 : ¬ s > n := by omega
    have a5 : ¬ e > n := by omega
    unfold validateLineRange
    rw [if_neg a1, if_neg a2, if_neg a3, if_neg a4, if_neg a5]
  · intro h
    unfold validateLineRange
    rw [if_pos h]
  · intro h1 h2
    unfold validateLineRange
    rw [if_neg (by omega), if_pos (by omega)]
  · intro h1 h2 h3
    unfold validateLineRange
    rw [if_neg (by omega), if_neg (by omega), if_pos (by omega)]
  · intro h1 h2 h3 h4
    have b1 : ¬ s < 1 := by omega
    have b2 : ¬ e < 1 := by omega
    have b3 : ¬ s > e := by omega
    unfold validateLineRange
    rw [if_neg b1, if_neg b2, if_neg b3, if_pos (by omega)]
  · intro h1 h2 h3 h4 h5
    have k1 : ¬ s < 1 := by omega
    have k2 : ¬ e < 1 := by omega
    have k3 : ¬ s > e := by omega
    have k4 : ¬ s > n := by omega
    unfold validateLineRange
    rw [if_neg k1, if_neg k2, if_neg k3, if_neg k4, if_pos (by omega)]

/-- C1: on a valid range, the edit produces a buffer of exactly
`totalLines - (endLine - startLine + 1) + k` lines where `k` is the number
of replacement lines; lines before `startLine` keep their positions and
lines after `endLine` follow the replacement in their original order; the
reported `lines_replaced` is `endLine - startLine + 1` and the reported
`total_lines` is the post-edit buffer length. -/
theorem handleEditFileIso_splice_spec
    (eol : LineEnding) (fileContent newContent : List Char) (s e : Int)
    (h1 : 1 ≤ s) (h2 : s ≤ e) (h3 : e ≤ ((splitLines fileContent).length : Int)) :
    ∃ r : EditCore,
      editFileCore eol fileContent s e newContent = .ok r
      ∧ r.updatedLines.length
          = (splitLines fileContent).length - (e - s + 1).toNat + (splitLines newContent).length
      ∧ r.linesReplaced = (e - s + 1).toNat
      ∧ r.totalLines = r.updatedLines.length
      ∧ (∀ i : Nat, i < (s - 1).toNat → r.updatedLines[i]? = (splitLines fileContent)[i]?)
      ∧ (∀ j : Nat, r.updatedLines[(s - 1).toNat + (splitLines newContent).length + j]?
          = (splitLines fileContent)[e.toNat + j]?) := by
  have hcore := editFileCore_valid_eq eol fileContent newContent s e h1 h2 h3
  have hlenTake : ((splitLines fileContent).take (s - 1).toNat).length = (s - 1).toNat := by
    rw [List.length_take]
    omega
  refine ⟨_, hcore, ?_, rfl, rfl, ?_, ?_⟩
  · simp only [splicedLines, List.length_append, List.length_take, List.length_drop]
    omega
  · intro i hi
    simp only [splicedLines]
    rw [List.getElem?_append_left (by rw [List.length_append, hlenTake]; omega),
      List.getElem?_append_left (by rw [hlenTake]; omega),
      List.getElem?_take_of_lt hi]
  · intro j
    simp only [splicedLines]
    rw [List.getElem?_append_right (by rw [List.length_append, hlenTake]; omega),
      List.length_append, hlenTake]
    have harith : (s - 1).toNat + (splitLines newContent).length + j
        - ((s - 1).toNat + (splitLines newContent).length) = j := by omega
    rw [harith, List.getElem?_drop]
    have harith3 : (s - 1).toNat + (e - s + 1).toNat + j = e.toNat + j := by omega
    rw [harith3]

/-- Witness for C1: replacing lines 2 to 3 of a four-line file with one
line, checking the reported counts and the preserved lines. -/
theorem handleEditFileIso_splice_spec_witness :
    ∃ r : EditCore,
      editFileCore .LF (("a\nb\nc\nd").toList) 2 3 (("x").toList) = .ok r
      ∧ r.updatedLines.length
          = (splitLines (("a\nb\nc\nd").toList)).length - ((3 : Int) - 2 + 1).toNat
            + (splitLines (("x").toList)).length
      ∧ r.linesReplaced = ((3 : Int) - 2 + 1).toNat
      ∧ r.totalLines = r.updatedLines.length
      ∧ (∀ i : Nat, i < ((2 : Int) - 1).toNat →
          r.updatedLines[i]? = (splitLines (("a\nb\nc\nd").toList))[i]?)
      ∧ (∀ j : Nat, r.updatedLines[((2 : Int) - 1).toNat
            + (splitLines (("x").toList)).length + j]?
          = (splitLines (("a\nb\nc\nd").toList))[(3 : Int).toNat + j]?) :=
  handleEditFileIso_splice_spec .LF (("a\nb\nc\nd").toList) (("x").toList) 2 3
    (by decide) (by decide) (by decide)

/-- C4 counterexample: editing one line of an LF-detected file with a
replacement line ending in a bare CR produces output containing a CRLF
pair, so the rejoined output does not use exclusively the detected
terminator and the bare CR of the replacement is not normalized away. -/
theorem edit_lineEnding_cex :
    detectLineEnding .LF (("a\nb\nc").toList) = .LF
    ∧ (editFileCore .LF (("a\nb\nc").toList) 2 2 (("x\r").toList)).toOption.map
        (fun r => r.updatedContent) = some (("a\nx\r\nc").toList)
    ∧ crlfCount (("a\nx\r\nc").toList) = 1
    ∧ lfOnlyCount (("a\nx\r\nc").toList) = 1 := by decide

/-- C4 amended: the rejoined output uses the terminator detected from the
original content before the edit, never a re-detected one: when CRLF was
detected the output contains no bare-LF terminator at all (so editing one
line of a CRLF file leaves every terminator CRLF, whatever terminator
style the replacement uses); when LF was detected the output contains no
CRLF pair provided no original or replacement line ends in a bare CR (a
trailing bare CR — not a terminator under the split grammar — would fuse
with the joining LF, as in the counterexample). -/
theorem edit_lineEnding_amended (eol : LineEnding) (fileContent newContent : List Char)
    (s e : Int) (h1 : 1 ≤ s) (h2 : s ≤ e)
    (h3 : e ≤ ((splitLines fileContent).length : Int)) :
    ∃ r : EditCore,
      editFileCore eol fileContent s e newContent = .ok r
      ∧ r.lineEnding = detectLineEnding eol fileContent
      ∧ r.updatedContent = joinLines r.lineEnding.chars r.updatedLines
      ∧ (r.lineEnding = .CRLF → lfOnlyCount r.updatedContent = 0)
      ∧ (r.lineEnding = .LF →
          (∀ l ∈ splitLines fileContent, l.getLast? ≠ some '\r') →
          (∀ l ∈ splitLines newContent, l.getLast? ≠ some '\r') →
          crlfCount r.updatedContent = 0) := by
  have hcore := editFileCore_valid_eq eol fileContent newContent s e h1 h2 h3
  have hmemLf := splicedLines_no_lf fileContent newContent s e
  refine ⟨_, hcore, rfl, rfl, ?_, ?_⟩
  · intro hCR
    simp only at hCR ⊢
    rw [hCR, lfOnlyCount_eq_aux (p := 'x') (by decide)]
    exact lfOnlyCountAux_joinCRLF _ hmemLf 'x'
  · intro hLF hfile hnew
    simp only at hLF ⊢
    rw [hLF, crlfCount_eq_aux (p := 'x') (by decide)]
    refine crlfCountAux_joinLF _ hmemLf ?_ 'x' (by decide)
    intro l hl
    rcases List.mem_append.mp hl with h | h
    · rcases List.mem_append.mp h with h2 | h2
      · exact hfile l (List.take_subset _ _ h2)
      · exact hnew l h2
    · exact hfile l (List.drop_subset _ _ h)

/-- Witness for C4 at a CRLF file edited with an LF-style replacement: the
output has no bare-LF terminator. -/
theorem edit_lineEnding_amended_witness :
    ∃ r : EditCore,
      editFileCore .LF (("a\r\nb\r\nc").toList) 2 2 (("x\ny").toList) = .ok r
      ∧ r.lineEnding = detectLineEnding .LF (("a\r\nb\r\nc").toList)
      ∧ r.updatedContent = joinLines r.lineEnding.chars r.updatedLines
      ∧ (r.lineEnding = .CRLF → lfOnlyCount r.updatedContent = 0)
      ∧ (r.lineEnding = .LF →
          (∀ l ∈ splitLines (("a\r\nb\r\nc").toList), l.getLast? ≠ some '\r') →
          (∀ l ∈ splitLines (("x\ny").toList), l.getLast? ≠ some '\r') →
          crlfCount r.updatedContent = 0) :=
  edit_lineEnding_amended .LF (("a\r\nb\r\nc").toList) (("x\ny").toList) 2 2
    (by decide) (by decide) (by decide)

/-- Witness for C5: a valid range and a start-beyond-bounds range, matching
the repository tests. -/
theorem validateLineRange_spec_witness :
    (validateLineRange 15 20 10).error = some (rangeMsgStartBeyond 15 10) :=
  ((validateLineRange_spec 15 20 10).2.2.2.2.2.1 (by decide) (by decide) (by decide) (by decide))

/-- C8 counterexample: the text `ï¿½` lies entirely in the ISO-8859-1
repertoire and round-trips exactly, yet verifying a file written from it
reports a corruption count of 1, because the corruption marker is itself a
legitimate ISO-8859-1 character sequence. -/
theorem iso8859_roundtrip_cex :
    (∀ c ∈ ("ï¿½").toList, c.toNat < 256)
    ∧ decodeIso (encodeIso (("ï¿½").toList)) = ("ï¿½").toList
    ∧ (verifyEncodingBytes (encodeIso (("ï¿½").toList))).corruptionCount = 1
    ∧ (verifyEncodingBytes (encodeIso (("ï¿½").toList))).isClean = false := by decide

/-- C8 amended: for text composed only of characters representable in
ISO-8859-1, `decode(encode(text))` equals the text exactly; verification
of a file written from such text reports zero corruption and a clean flag
provided the text does not itself contain the marker sequence `ï¿½`; and
decoding is total, mapping every byte to exactly one character. -/
theorem iso8859_roundtrip_spec (text : List Char) (h : ∀ c ∈ text, c.toNat < 256) :
    decodeIso (encodeIso text) = text
    ∧ (markerCount text = 0 →
        (verifyEncodingBytes (encodeIso text)).corruptionCount = 0
        ∧ (verifyEncodingBytes (encodeIso text)).isClean = true)
    ∧ (∀ bytes : List Nat, (decodeIso bytes).length = bytes.length) := by
  have hrt : decodeIso (encodeIso text) = text := by
    rw [decode_encode_eq_map, map_isoFallback_of_repertoire h]
  refine ⟨hrt, ?_, ?_⟩
  · intro h0
    have hcc : (verifyEncodingBytes (encodeIso text)).corruptionCount = 0 := by
      show markerCount (decodeIso (encodeIso text)) = 0
      rw [hrt]
      exact h0
    refine ⟨hcc, ?_⟩
    show decide (markerCount (decodeIso (encodeIso text)) = 0) = true
    rw [hrt, h0]
    rfl
  · intro bytes
    exact List.length_map bytes _

/-- Witness for C8 at the spec example text `Café, niño`. -/
theorem iso8859_roundtrip_spec_witness :
    decodeIso (encodeIso (("Café, niño").toList)) = ("Café, niño").toList
    ∧ (markerCount (("Café, niño").toList) = 0 →
        (verifyEncodingBytes (encodeIso (("Café, niño").toList))).corruptionCount = 0
        ∧ (verifyEncodingBytes (encodeIso (("Café, niño").toList))).isClean = true)
    ∧ (∀ bytes : List Nat, (decodeIso bytes).length = bytes.length) :=
  iso8859_roundtrip_spec (("Café, niño").toList) (by decide)

/-- C10: the round trip through the encoder replaces exactly the characters
outside the repertoire with the single fallback `?`, which never creates
the three-character marker `ï¿½`; hence whenever the text handed to the
encoder does not contain the marker, the scan of the written file reports
zero corruption and a clean flag even if out-of-repertoire characters were
lossily replaced — in particular for every successful `write_file_iso` call
whose content is marker-free. -/
theorem verify_marker_fallback_spec (text : List Char) :
    decodeIso (encodeIso text) = text.map isoFallback
    ∧ markerCount (text.map isoFallback) = markerCount text
    ∧ (markerCount text = 0 →
        (verifyEncodingBytes (encodeIso text)).corruptionCount = 0
        ∧ (verifyEncodingBytes (encodeIso text)).isClean = true)
    ∧ (∀ (basePath : List Char) (fs : FS) (filePath : List Char) (fs2 : FS)
        (out : WriteOutput),
        markerCount text = 0 →
        handleWriteFileIso basePath false fs filePath text = (fs2, .ok out) →
        out.corruption_count = 0 ∧ out.is_clean = true) := by
  have hcc : markerCount text = 0 →
      (verifyEncodingBytes (encodeIso text)).corruptionCount = 0
      ∧ (verifyEncodingBytes (encodeIso text)).isClean = true := by
    intro h0
    have hc : (verifyEncodingBytes (encodeIso text)).corruptionCount = 0 := by
      show markerCount (decodeIso (encodeIso text)) = 0
      rw [decode_encode_eq_map, markerCount_map_isoFallback, h0]
    refine ⟨hc, ?_⟩
    show decide (markerCount (decodeIso (encodeIso text)) = 0) = true
    rw [decode_encode_eq_map, markerCount_map_isoFallback, h0]
    rfl
  refine ⟨decode_encode_eq_map text, markerCount_map_isoFallback text, hcc, ?_⟩
  intro basePath fs filePath fs2 out h0 heq
  by_cases hv : (validatePath basePath filePath).valid = true
  · rw [handleWriteFileIso_ok basePath fs filePath text hv] at heq
    have hout := (Prod.mk.injEq _ _ _ _ ▸ heq).2
    have hout2 : out = ⟨(validatePath basePath filePath).normalizedPath, ("iso-8859-1").toList,
        (verifyEncodingBytes (encodeIso text)).corruptionCount,
        (verifyEncodingBytes (encodeIso text)).isClean⟩ := by
      cases heq
      rfl
    rw [hout2]
    exact hcc h0
  · exfalso
    rw [Bool.not_eq_true] at hv
    unfold handleWriteFileIso at heq
    rw [if_pos hv] at heq
    cases heq

/-- Witness for C10: marker-free text with an out-of-repertoire character
still verifies clean. -/
theorem verify_marker_fallback_spec_witness :
    (verifyEncodingBytes (encodeIso (("día €").toList))).corruptionCount = 0
    ∧ (verifyEncodingBytes (encodeIso (("día €").toList))).isClean = true :=
  (verify_marker_fallback_spec (("día €").toList)).2.2.1 (by decide)

/-- C2 counterexample: with base directory `/foo`, the absolute path
`/foobar` does not lie within the base (it is a sibling whose name merely
extends the base name), yet `validatePath` accepts it, because the sandbox
check is a string prefix test on the resolved paths. -/
theorem validatePath_sandbox_cex :
    (validatePath ("/foo").toList ("/foobar").toList).valid = true
    ∧ ¬ liesWithin (resolvePath ("/foo").toList) (resolvePath ("/foobar").toList)
    ∧ resolvePath ("/foo").toList = ("/foo").toList
    ∧ resolvePath ("/foobar").toList = ("/foobar").toList := by decide

/-- C2 amended: when a base directory is configured, `validatePath` rejects
every relative input with the not-absolute error, accepts an absolute path
exactly when its resolved form has the resolved base as a string prefix —
so every path lying within the base is accepted, but so are sibling paths
whose string form extends the base, hence acceptance does not imply
containment — and reports the outside-sandbox error whenever the prefix
test fails. -/
theorem validatePath_spec_amended (basePath p : List Char) (hbase : basePath ≠ []) :
    (isAbsolutePath p = false →
      validatePath basePath p = ⟨false, [], some ("Path must be absolute").toList⟩)
    ∧ (isAbsolutePath p = true →
        ((validatePath basePath p).valid = true
          ↔ strStartsWith (resolvePath p) (resolvePath basePath) = true))
    ∧ (isAbsolutePath p = true → liesWithin (resolvePath basePath) (resolvePath p) →
        (validatePath basePath p).valid = true)
    ∧ ((validatePath basePath p).valid = true →
        isAbsolutePath p = true ∧ (validatePath basePath p).normalizedPath = resolvePath p)
    ∧ (isAbsolutePath p = true →
        strStartsWith (resolvePath p) (resolvePath basePath) = false →
        (validatePath basePath p).error
          = some (("Path must be inside ").toList ++ basePath)) := by
  refine ⟨?_, ?_, ?_, ?_, ?_⟩
  · intro habs
    unfold validatePath
    rw [if_pos habs]
  · intro habs
    unfold validatePath
    rw [if_neg (by rw [habs]; simp), if_neg hbase]
    by_cases hpre : strStartsWith (resolvePath p) (resolvePath basePath) = false
    · rw [if_pos hpre]
      simp [hpre]
    · rw [if_neg hpre]
      rw [Bool.not_eq_false] at hpre
      simp [hpre]
  · intro habs hwithin
    unfold validatePath
    rw [if_neg (by rw [habs]; simp), if_neg hbase,
      if_neg (by rw [liesWithin_startsWith hwithin]; simp)]
  · intro hvalid
    by_cases habs : isAbsolutePath p = true
    · refine ⟨habs, ?_⟩
      unfold validatePath at hvalid ⊢
      rw [if_neg (by rw [habs]; simp), if_neg hbase] at hvalid ⊢
      by_cases hpre : strStartsWith (resolvePath p) (resolvePath basePath) = false
      · rw [if_pos hpre] at hvalid
        cases hvalid
      · rw [if_neg hpre]
    · exfalso
      rw [Bool.not_eq_true] at habs
      unfold validatePath at hvalid
      rw [if_pos habs] at hvalid
      cases hvalid
  · intro habs hpre
    unfold validatePath
    rw [if_neg (by rw [habs]; simp), if_neg hbase, if_pos hpre]

/-- Witness for C2: a nested path inside the base is accepted with its
normalized form, and a relative path is rejected. -/
theorem validatePath_spec_amended_witness :
    (validatePath ("/foo").toList ("/foo/./sub/../bar.txt").toList).valid = true
    ∧ validatePath ("/foo").toList ("rel.txt").toList
      = ⟨false, [], some ("Path must be absolute").toList⟩ :=
  ⟨(validatePath_spec_amended ("/foo").toList ("/foo/./sub/../bar.txt").toList
      (by decide)).2.2.1 (by decide) (by decide),
    (validatePath_spec_amended ("/foo").toList ("rel.txt").toList (by decide)).1 (by decide)⟩


/-- C7 counterexample: a file directly inside the backup root is certainly
under the backup root, yet its backup directory is the `external`
subdirectory, because its relative directory is `.`. -/
theorem createBackup_direct_child_cex :
    liesWithin (("/proj").toList) (("/proj/a.txt").toList)
    ∧ backupDirOf (("/proj").toList) (("/proj/a.txt").toList)
      = ("/proj/.mcp-iso8859-writer/external").toList
    ∧ backupPathOf (("/proj").toList) (("/proj/a.txt").toList) 7
      = ("/proj/.mcp-iso8859-writer/external/a.txt.backup.7").toList := by decide

/-- C7 amended: for a target file in a proper subdirectory of the backup
root (so its relative directory is neither `.` nor `..`-prefixed), the
backup is placed at
`<backupRoot>/.mcp-iso8859-writer/<relativeDirOfFile>/<filename>.backup.<timestampMillis>`,
mirroring the directory relative to the backup root; a file directly
inside the backup root, and every file whose resolved path is not under
the backup root, is placed under the `external` subdirectory instead. -/
theorem createBackup_placement (rs dsegs : List (List Char)) (f : List Char) (now : Nat)
    (hrs0 : rs ≠ []) (hrs : ∀ s ∈ rs, segClean s) (hds : ∀ s ∈ dsegs, segClean s)
    (hf : segClean f)
    (hdd : ∀ d0, dsegs.head? = some d0 → strStartsWith d0 ['.', '.'] = false) :
    (dsegs ≠ [] →
      backupPathOf (pathOfSegs rs) (pathOfSegs (rs ++ dsegs ++ [f])) now
        = pathOfSegs rs ++ ("/.mcp-iso8859-writer/").toList ++ joinLines ['/'] dsegs
          ++ '/' :: (f ++ (".backup.").toList ++ natChars now))
    ∧ (dsegs = [] →
        backupPathOf (pathOfSegs rs) (pathOfSegs (rs ++ [f])) now
          = pathOfSegs rs ++ ("/.mcp-iso8859-writer/external/").toList
            ++ f ++ (".backup.").toList ++ natChars now)
    ∧ (∀ ts : List (List Char), (∀ s ∈ ts, segClean s) → commonSegs rs ts < rs.length →
        backupDirOf (pathOfSegs rs) (pathOfSegs ts)
          = pathOfSegs rs ++ ("/.mcp-iso8859-writer/external").toList) := by
  have hrootLast : (pathOfSegs rs).getLast? ≠ some '/' :=
    getLast?_pathOfSegs_ne_slash rs hrs0 hrs
  have hbase : joinPath (pathOfSegs rs) ((".mcp-iso8859-writer").toList)
      = pathOfSegs rs ++ '/' :: (".mcp-iso8859-writer").toList :=
    joinPath_of_getLast_ne _ hrootLast
  have hbaseLast : (pathOfSegs rs ++ '/' :: (".mcp-iso8859-writer").toList).getLast?
      ≠ some '/' := by
    refine getLast?_append_ne_slash _ _ (by simp) ?_
    decide
  refine ⟨?_, ?_, ?_⟩
  · intro hne
    obtain ⟨d0, dt, hdseg⟩ : ∃ d0 dt, dsegs = d0 :: dt := by
      cases dsegs with
      | nil => exact absurd rfl hne
      | cons a t => exact ⟨a, t, rfl⟩
    have hrel : nodeRelative (pathOfSegs rs) (pathOfSegs (rs ++ dsegs ++ [f]))
        = joinLines ['/'] (dsegs ++ [f]) := by
      rw [List.append_assoc]
      exact nodeRelative_under rs (dsegs ++ [f]) hrs
        (fun s hs => (List.mem_append.mp hs).elim (hds s)
          (fun h => by rw [List.mem_singleton.mp h]; exact hf))
    have hjoin : joinLines ['/'] (dsegs ++ [f]) = joinLines ['/'] dsegs ++ '/' :: f := by
      rw [joinLines_append_last ['/'] f dsegs hne, List.append_assoc, List.singleton_append]
    have hdir : dirname (nodeRelative (pathOfSegs rs) (pathOfSegs (rs ++ dsegs ++ [f])))
        = joinLines ['/'] dsegs := by
      rw [hrel, hjoin]
      exact dirname_append_slash _ f (fun c hc he => hf.2.1 (he ▸ hc))
    have hnotdot : strStartsWith
        (nodeRelative (pathOfSegs rs) (pathOfSegs (rs ++ dsegs ++ [f]))) ['.', '.']
        = false := by
      rw [hrel, hdseg]
      have : (d0 :: dt) ++ [f] = d0 :: (dt ++ [f]) := rfl
      rw [this]
      exact strStartsWith_join_dotdot d0 (dt ++ [f])
        (hds d0 (hdseg ▸ List.mem_cons_self d0 dt)).1
        (hdd d0 (by rw [hdseg]; rfl))
    unfold backupPathOf
    rw [backupDirOf_eq, if_neg (by
      rw [hdir, hnotdot]
      push_neg
      refine ⟨joinLines_ne_dot dsegs hne hds, by simp⟩)]
    rw [hdir, hbase,
      joinPath_of_getLast_ne _ hbaseLast,
      joinPath_of_getLast_ne _ (getLast?_append_ne_slash _ ('/' :: joinLines ['/'] dsegs)
        (by simp) (getLast?_cons_joinLines_ne_slash '/' dsegs hne hds)),
      basename_pathOfSegs (rs ++ dsegs) f hf.2.1]
    have hlit : ("/.mcp-iso8859-writer/").toList
        = ('/' :: (".mcp-iso8859-writer").toList) ++ ['/'] := by decide
    rw [hlit]
    simp [List.append_assoc]
  · intro hnil
    subst hnil
    have hrel : nodeRelative (pathOfSegs rs) (pathOfSegs (rs ++ [f])) = f := by
      have h0 := nodeRelative_under rs [f] hrs
        (fun s hs => by rw [List.mem_singleton.mp hs]; exact hf)
      exact h0
    unfold backupPathOf
    rw [backupDirOf_eq, if_pos (Or.inl (by
      rw [hrel]
      exact dirname_of_no_slash f hf.2.1))]
    rw [hbase,
      joinPath_of_getLast_ne _ hbaseLast,
      joinPath_of_getLast_ne _ (getLast?_append_ne_slash _ ('/' :: ("external").toList)
        (by simp) (by decide)),
      basename_pathOfSegs rs f hf.2.1]
    have hlit : ("/.mcp-iso8859-writer/external/").toList
        = ('/' :: (".mcp-iso8859-writer").toList) ++ ('/' :: ("external").toList) ++ ['/'] := by
      decide
    rw [hlit]
    simp [List.append_assoc]
  · intro ts hts hcommon
    have hrel : nodeRelative (pathOfSegs rs) (pathOfSegs ts)
        = joinLines ['/'] (List.replicate (rs.length - commonSegs rs ts) ['.', '.']
          ++ ts.drop (commonSegs rs ts)) := by
      unfold nodeRelative
      rw [resolveSegs_pathOfSegs rs hrs, resolveSegs_pathOfSegs ts hts]
    obtain ⟨k, hk⟩ : ∃ k, rs.length - commonSegs rs ts = k + 1 :=
      ⟨rs.length - commonSegs rs ts - 1, by omega⟩
    have hpos : strStartsWith (nodeRelative (pathOfSegs rs) (pathOfSegs ts)) ['.', '.']
        = true := by
      rw [hrel, hk, List.replicate_succ, List.cons_append]
      exact strStartsWith_join_dotdot_pos _
    rw [backupDirOf_eq, if_pos (Or.inr hpos), hbase,
      joinPath_of_getLast_ne _ hbaseLast]
    have hlit : ("/.mcp-iso8859-writer/external").toList
        = ('/' :: (".mcp-iso8859-writer").toList) ++ ('/' :: ("external").toList) := by
      decide
    rw [hlit]
    simp [List.append_assoc]

/-- Witness for C7: backup root `/p`, target `/p/d/a`, timestamp 5 — the
backup lands at the mirrored directory, and the sibling target `/q/a` is
sent to `external`. -/
theorem createBackup_placement_witness :
    backupPathOf (pathOfSegs [['p']]) (pathOfSegs ([['p']] ++ [['d']] ++ [['a']])) 5
      = pathOfSegs [['p']] ++ ("/.mcp-iso8859-writer/").toList ++ joinLines ['/'] [['d']]
        ++ '/' :: (['a'] ++ (".backup.").toList ++ natChars 5) :=
  (createBackup_placement [['p']] [['d']] ['a'] 5 (by decide) (by decide) (by decide)
    (by decide) (by decide)).1 (by decide)


/-- C6: whenever an edit succeeds, the filesystem holds a backup at the
reported `backup_path` whose bytes equal the target file content before the
edit (the backup path never collides with the target, whose name it
strictly extends); and when the backup copy fails, the edit fails with an
error response and the filesystem — in particular the target file — is
completely unchanged, because the edit writes only after a successful
backup. -/
theorem edit_backup_spec (basePath projectRoot : List Char) (eol : LineEnding) (now : Nat)
    (backupFails writeFails : Bool) (fs : FS) (filePath : List Char) (s e : Int)
    (newContent : List Char) :
    (∀ (fs2 : FS) (out : EditOutput),
      handleEditFileIso basePath projectRoot eol now backupFails writeFails fs
        filePath s e newContent = (fs2, .ok out) →
      ∃ oldBytes : List Nat,
        fs out.path = some oldBytes
        ∧ fs2 out.backup_path = some oldBytes
        ∧ out.backup_path = backupPathOf projectRoot out.path now
        ∧ out.backup_path ≠ out.path)
    ∧ (backupFails = true →
        (handleEditFileIso basePath projectRoot eol now backupFails writeFails fs
          filePath s e newContent).1 = fs
        ∧ (handleEditFileIso basePath projectRoot eol now backupFails writeFails fs
          filePath s e newContent).2.isError = true) := by
  constructor
  · intro fs2 out heq
    by_cases hv : (validatePath basePath filePath).valid = false
    · unfold handleEditFileIso at heq
      rw [if_pos hv] at heq
      simp at heq
    · rw [Bool.not_eq_false] at hv
      unfold handleEditFileIso at heq
      rw [if_neg (by rw [hv]; simp)] at heq
      simp only [] at heq
      cases hread : fs (validatePath basePath filePath).normalizedPath with
      | none =>
        rw [hread] at heq
        simp at heq
      | some fileBytes =>
        rw [hread] at heq
        simp only [] at heq
        by_cases hbf : backupFails = true
        · rw [hbf] at heq
          simp at heq
        · rw [Bool.not_eq_true] at hbf
          rw [hbf] at heq
          simp only [Bool.false_eq_true, if_false] at heq
          rw [show createBackup projectRoot now fs
              (validatePath basePath filePath).normalizedPath
            = some (FS.write fs (backupPathOf projectRoot
                ((validatePath basePath filePath).normalizedPath) now) fileBytes,
              backupPathOf projectRoot
                ((validatePath basePath filePath).normalizedPath) now) from by
            unfold createBackup
            rw [hread]] at heq
          simp only [] at heq
          cases hcore : editFileCore eol (decodeIso fileBytes) s e newContent with
          | error msg =>
            rw [hcore] at heq
            simp at heq
          | ok r =>
            rw [hcore] at heq
            simp only [] at heq
            by_cases hwf : writeFails = true
            · rw [hwf] at heq
              simp at heq
            · rw [Bool.not_eq_true] at hwf
              rw [hwf] at heq
              simp only [Bool.false_eq_true, if_false] at heq
              rw [show FS.write (FS.write fs (backupPathOf projectRoot
                    ((validatePath basePath filePath).normalizedPath) now) fileBytes)
                  ((validatePath basePath filePath).normalizedPath)
                  (encodeIso r.updatedContent)
                  ((validatePath basePath filePath).normalizedPath)
                = some (encodeIso r.updatedContent) from by
                unfold FS.write
                rw [if_pos rfl]] at heq
              simp only [] at heq
              injection heq with h1 h2
              injection h2 with h3
              subst h1
              subst h3
              refine ⟨fileBytes, hread, ?_, rfl, backupPathOf_ne _ _ _⟩
              show FS.write (FS.write fs _ fileBytes) _ (encodeIso r.updatedContent) _
                = some fileBytes
              unfold FS.write
              rw [if_neg (backupPathOf_ne projectRoot
                ((validatePath basePath filePath).normalizedPath) now), if_pos rfl]
  · intro hbf
    subst hbf
    unfold handleEditFileIso
    by_cases hv : (validatePath basePath filePath).valid = false
    · rw [if_pos hv]
      exact ⟨rfl, rfl⟩
    · rw [Bool.not_eq_false] at hv
      rw [if_neg (by rw [hv]; simp)]
      simp only []
      cases hread : fs (validatePath basePath filePath).normalizedPath with
      | none => exact ⟨rfl, rfl⟩
      | some fileBytes => exact ⟨rfl, rfl⟩

/-- Witness for C6: a successful concrete edit leaves the pre-edit bytes at
the reported backup path, and an injected backup fault leaves the
filesystem untouched with an error response. -/
theorem edit_backup_spec_witness :
    (∀ (fs2 : FS) (out : EditOutput),
      handleEditFileIso [] (("/p").toList) .LF 5 false false
        (fun q => if q = ("/p/a").toList then some (encodeIso (("x\ny").toList)) else none)
        (("/p/a").toList) 1 1 (("z").toList) = (fs2, .ok out) →
      ∃ oldBytes : List Nat,
        (fun q => if q = ("/p/a").toList then some (encodeIso (("x\ny").toList)) else none)
            out.path = some oldBytes
        ∧ fs2 out.backup_path = some oldBytes
        ∧ out.backup_path = backupPathOf (("/p").toList) out.path 5
        ∧ out.backup_path ≠ out.path)
    ∧ ((handleEditFileIso [] (("/p").toList) .LF 5 true false
        (fun q => if q = ("/p/a").toList then some (encodeIso (("x\ny").toList)) else none)
        (("/p/a").toList) 1 1 (("z").toList)).1
      = (fun q => if q = ("/p/a").toList then some (encodeIso (("x\ny").toList)) else none)
      ∧ (handleEditFileIso [] (("/p").toList) .LF 5 true false
        (fun q => if q = ("/p/a").toList then some (encodeIso (("x\ny").toList)) else none)
        (("/p/a").toList) 1 1 (("z").toList)).2.isError = true) :=
  ⟨(edit_backup_spec [] (("/p").toList) .LF 5 false false _ (("/p/a").toList) 1 1
      (("z").toList)).1,
    (edit_backup_spec [] (("/p").toList) .LF 5 true false _ (("/p/a").toList) 1 1
      (("z").toList)).2 rfl⟩


theorem append_ne_nil_left {A B : List Char} (hA : A ≠ []) : A ++ B ≠ [] :=
  fun h => hA (List.append_eq_nil.mp h).1

/-- An invalid path validation always carries a nonempty message. -/
theorem validatePath_invalid_msg (basePath p : List Char)
    (h : (validatePath basePath p).valid = false) :
    (validatePath basePath p).error.getD [] ≠ [] := by
  unfold validatePath at h ⊢
  by_cases habs : isAbsolutePath p = false
  · rw [if_pos habs]
    decide
  · rw [if_neg habs] at h ⊢
    by_cases hb : basePath = []
    · rw [if_pos hb] at h
      simp at h
    · rw [if_neg hb] at h ⊢
      by_cases hpre : strStartsWith (resolvePath p) (resolvePath basePath) = false
      · rw [if_pos hpre]
        simp only [Option.getD_some]
        intro hc
        have h1 := (List.append_eq_nil.mp hc).1
        cases h1
      · rw [if_neg hpre] at h
        simp at h

/-- An invalid line range always carries a nonempty message. -/
theorem validateLineRange_invalid_msg (s e n : Int)
    (h : (validateLineRange s e n).valid = false) :
    (validateLineRange s e n).error.getD [] ≠ [] := by
  unfold validateLineRange at h ⊢
  split_ifs at h ⊢ <;>
    (simp only [Option.getD_some, rangeMsgStartLow, rangeMsgEndLow, rangeMsgStartGtEnd,
      rangeMsgStartBeyond, rangeMsgEndBeyond]
     repeat' apply append_ne_nil_left
     decide)

/-- C9: the three operation handlers are total functions into the structured
response type: a response is either a success payload or the uniform error
shape with `isError = true`; and every collaborator failure — invalid path,
missing file, backup fault, range rejection from the edit core, or write
fault — is converted into that error shape, carrying the collaborator
message (nonempty for both validators). -/
theorem handlers_uniform_error_spec
    (basePath projectRoot : List Char) (eol : LineEnding) (now : Nat)
    (backupFails writeFails : Bool) (fs : FS)
    (filePath content newContent : List Char) (s e : Int) :
    ((handleWriteFileIso basePath writeFails fs filePath content).2.isError = true
      ↔ ∃ m, (handleWriteFileIso basePath writeFails fs filePath content).2 = .err m)
    ∧ ((handleEditFileIso basePath projectRoot eol now backupFails writeFails fs
          filePath s e newContent).2.isError = true
      ↔ ∃ m, (handleEditFileIso basePath projectRoot eol now backupFails writeFails fs
          filePath s e newContent).2 = .err m)
    ∧ ((handleReadFileIso basePath eol fs filePath).2.isError = true
      ↔ ∃ m, (handleReadFileIso basePath eol fs filePath).2 = .err m)
    ∧ ((validatePath basePath filePath).valid = false →
        handleWriteFileIso basePath writeFails fs filePath content
          = (fs, .err ((validatePath basePath filePath).error.getD []))
        ∧ handleEditFileIso basePath projectRoot eol now backupFails writeFails fs
            filePath s e newContent
          = (fs, .err ((validatePath basePath filePath).error.getD []))
        ∧ handleReadFileIso basePath eol fs filePath
          = (fs, .err ((validatePath basePath filePath).error.getD []))
        ∧ (validatePath basePath filePath).error.getD [] ≠ [])
    ∧ ((validatePath basePath filePath).valid = true → writeFails = true →
        handleWriteFileIso basePath writeFails fs filePath content = (fs, .err writeFailMsg))
    ∧ ((validatePath basePath filePath).valid = true →
        fs (validatePath basePath filePath).normalizedPath = none →
        handleEditFileIso basePath projectRoot eol now backupFails writeFails fs
            filePath s e newContent
          = (fs, .err (("File does not exist: ").toList
              ++ (validatePath basePath filePath).normalizedPath))
        ∧ handleReadFileIso basePath eol fs filePath
          = (fs, .err (("File does not exist: ").toList
              ++ (validatePath basePath filePath).normalizedPath)))
    ∧ ((validatePath basePath filePath).valid = true →
        ∀ fileBytes, fs (validatePath basePath filePath).normalizedPath = some fileBytes →
        backupFails = true →
        handleEditFileIso basePath projectRoot eol now backupFails writeFails fs
            filePath s e newContent
          = (fs, .err backupFailMsg))
    ∧ ((validatePath basePath filePath).valid = true →
        ∀ fileBytes, fs (validatePath basePath filePath).normalizedPath = some fileBytes →
        backupFails = false →
        ∀ msg, editFileCore eol (decodeIso fileBytes) s e newContent = .error msg →
        handleEditFileIso basePath projectRoot eol now backupFails writeFails fs
            filePath s e newContent
          = (FS.write fs (backupPathOf projectRoot
              ((validatePath basePath filePath).normalizedPath) now) fileBytes, .err msg))
    ∧ ((validatePath basePath filePath).valid = true →
        ∀ fileBytes, fs (validatePath basePath filePath).normalizedPath = some fileBytes →
        backupFails = false → writeFails = true →
        ∀ r, editFileCore eol (decodeIso fileBytes) s e newContent = .ok r →
        handleEditFileIso basePath projectRoot eol now backupFails writeFails fs
            filePath s e newContent
          = (FS.write fs (backupPathOf projectRoot
              ((validatePath basePath filePath).normalizedPath) now) fileBytes,
            .err writeFailMsg))
    ∧ (∀ s' e' n', (validateLineRange s' e' n').valid = false →
        (validateLineRange s' e' n').error.getD [] ≠ []) := by
  refine ⟨?_, ?_, ?_, ?_, ?_, ?_, ?_, ?_, ?_, ?_⟩
  · cases h : (handleWriteFileIso basePath writeFails fs filePath content).2 with
    | ok out => simp [HandlerResult.isError]
    | err m => simp [HandlerResult.isError]
  · cases h : (handleEditFileIso basePath projectRoot eol now backupFails writeFails fs
        filePath s e newContent).2 with
    | ok out => simp [HandlerResult.isError]
    | err m => simp [HandlerResult.isError]
  · cases h : (handleReadFileIso basePath eol fs filePath).2 with
    | ok out => simp [HandlerResult.isError]
    | err m => simp [HandlerResult.isError]
  · intro h
    refine ⟨?_, ?_, ?_, validatePath_invalid_msg basePath filePath h⟩
    · unfold handleWriteFileIso
      rw [if_pos h]
    · unfold handleEditFileIso
      rw [if_pos h]
    · unfold handleReadFileIso
      rw [if_pos h]
  · intro hv hwf
    subst hwf
    unfold handleWriteFileIso
    rw [if_neg (by rw [hv]; simp)]
    rfl
  · intro hv hread
    constructor
    · unfold handleEditFileIso
      rw [if_neg (by rw [hv]; simp)]
      simp only []
      rw [hread]
    · unfold handleReadFileIso
      rw [if_neg (by rw [hv]; simp)]
      simp only []
      rw [hread]
  · intro hv fileBytes hread hbf
    subst hbf
    unfold handleEditFileIso
    rw [if_neg (by rw [hv]; simp)]
    simp only []
    rw [hread]
    rfl
  · intro hv fileBytes hread hbf msg hcore
    subst hbf
    unfold handleEditFileIso
    rw [if_neg (by rw [hv]; simp)]
    simp only []
    rw [hread]
    simp only []
    rw [show createBackup projectRoot now fs (validatePath basePath filePath).normalizedPath
      = some (FS.write fs (backupPathOf projectRoot
          ((validatePath basePath filePath).normalizedPath) now) fileBytes,
        backupPathOf projectRoot ((validatePath basePath filePath).normalizedPath) now) from by
      unfold createBackup
      rw [hread]]
    simp only []
    rw [hcore]
    rfl
  · intro hv fileBytes hread hbf hwf r hcore
    subst hbf
    subst hwf
    unfold handleEditFileIso
    rw [if_neg (by rw [hv]; simp)]
    simp only []
    rw [hread]
    simp only []
    rw [show createBackup projectRoot now fs (validatePath basePath filePath).normalizedPath
      = some (FS.write fs (backupPathOf projectRoot
          ((validatePath basePath filePath).normalizedPath) now) fileBytes,
        backupPathOf projectRoot ((validatePath basePath filePath).normalizedPath) now) from by
      unfold createBackup
      rw [hread]]
    simp only []
    rw [hcore]
    rfl
  · intro s' e' n' h
    exact validateLineRange_invalid_msg s' e' n' h

/-- Witness for C9: a relative path is rejected by all three handlers with
the uniform error shape. -/
theorem handlers_uniform_error_spec_witness :
    handleReadFileIso [] .LF (fun _ => none) (("rel.txt").toList)
      = ((fun _ => none : FS), .err ((validatePath [] (("rel.txt").toList)).error.getD [])) :=
  ((handlers_uniform_error_spec [] [] .LF 0 false false (fun _ => none)
    (("rel.txt").toList) [] [] 1 1).2.2.2.1 (by decide)).2.2.1

end Iso8859
